import Mathlib

/-!
# A shallow embedding of the stack machine of `vm.c`

The source is a single C file: a register/stack virtual machine with a
static chain for lexical scoping (`getBasePointer`), a single-step executor
(`executeInstruction`), a recursive stack tracer (`dumpStack`) and the
fetch/execute/trace loop of `simulateVM`.

Modelling conventions.

* `vm.h` and `data.h` are not part of the source tree, so the capacities
  `MAX_STACK_HEIGHT`, `MAX_CODE_LENGTH` and the size of the register file are
  unknown.  The source never checks an index against them.  The three arrays
  (`stack`, `RF`, the code array `ins`) are therefore integer-indexed
  memories `Int → α`; an uninitialised cell is simply an arbitrary value.
* `BP`, `SP`, `PC` are indices into those arrays.  Index arithmetic
  (`SP + 1`, `BP - 1`, `base + m`, `PC++`) is kept in the integers: a sum that
  leaves the range of `int` addresses no cell of any array.
* Register arithmetic (`neg`, `add`, `sub`, `mul`) computes data in the C type
  `int`; its results are reduced to the 32-bit two's complement range by
  `wrap32`.
* `/` and `%` are C's truncating operators (`Int.tdiv`, `Int.tmod`).  A zero
  divisor, and `INT_MIN / -1`, have no result in C: the step is `none`.
* The formatted files are kept as structured values: `vmOut` is the list of
  integers printed by opcode 9, `vmIn` a list of input tokens, the diagnostic
  channel a list of messages, the trace a list of records.
-/

namespace VM

/-! ## Data model -/

/-- One decoded instruction: the four `int` fields read by `readInstructions`. -/
structure Instruction where
  op : Int
  r : Int
  l : Int
  m : Int
  deriving DecidableEq, Repr

/-- The machine state of `vm.c`: three index registers, the register file `RF`
and the `stack` array. -/
structure VirtualMachine where
  BP : Int
  SP : Int
  PC : Int
  RF : Int → Int
  stack : Int → Int

/-- One whitespace-delimited item of a text stream, as `fscanf` with a `%d`
conversion sees it: either it converts to an integer or it does not. -/
inductive Token where
  | int (v : Int)
  | junk
  deriving DecidableEq, Repr

/-- The streams `executeInstruction` talks to: `vmIn` (remaining input),
`vmOut` (integers written so far, oldest first) and the diagnostic stream
`stderr` (messages written so far). -/
structure Channels where
  vmIn : List Token
  vmOut : List Int
  diag : List String
  deriving DecidableEq, Repr

/-- What a call of `executeInstruction` leaves behind: the mutated machine, the
streams, and the returned `int`. -/
structure ExecResult where
  vm : VirtualMachine
  ch : Channels
  ret : Int

/-- Smallest value of the C type `int`. -/
def INT_MIN : Int := -2147483648

/-- Largest value of the C type `int`. -/
def INT_MAX : Int := 2147483647

/-- Reduction of a mathematical integer to the 32-bit two's complement range. -/
def wrap32 (x : Int) : Int := (x + 2147483648) % 4294967296 - 2147483648

/-- Array store `a[i] = v` on an integer-indexed memory. -/
def setCell {α : Type} (a : Int → α) (i : Int) (v : α) : Int → α :=
  fun j => if j = i then v else a j

/-- The mnemonic table `opcodes[]`. -/
def opcodes : List String :=
  ["illegal",
   "lit", "rtn", "lod", "sto", "cal",
   "inc", "jmp", "jpc", "sio", "sio",
   "sio", "neg", "add", "sub", "mul",
   "div", "odd", "mod", "eql", "neq",
   "lss", "leq", "gtr", "geq"]

/-- The lookup `opcodes[op]`; `none` when `op` is not an index of the table. -/
def opcodeName (op : Int) : Option String :=
  if 0 ≤ op then opcodes.get? op.toNat else none

/-! ## `initVM` -/

/-- The function `initVM` on a non-null machine: sets the counter and the two
pointers, leaves `RF` and `stack` as they were allocated. -/
def initVM (vm : VirtualMachine) : VirtualMachine :=
  { vm with BP := 1, SP := 0, PC := 0 }

/-! ## `getBasePointer` -/

/-- The `while(L-- > 0) newBP = stack[newBP + 1];` loop with `n` iterations
left and the current value of `newBP`. -/
def walkChain (stack : Int → Int) : Nat → Int → Int
  | 0, newBP => newBP
  | n + 1, newBP => walkChain stack n (stack (newBP + 1))

/-- The function `getBasePointer`: the loop runs `L` times when `L > 0` and not
at all otherwise. -/
def getBasePointer (stack : Int → Int) (currentBP L : Int) : Int :=
  walkChain stack L.toNat currentBP

/-! ## `executeInstruction` -/

/-- C's `a == b` and friends: the `int` value of a condition. -/
def boolInt (p : Prop) [Decidable p] : Int := if p then 1 else 0

/-- The cases in which C's `a / b` and `a % b` have no value. -/
def divFault (a b : Int) : Prop := b = 0 ∨ (a = INT_MIN ∧ b = -1)

instance (a b : Int) : Decidable (divFault a b) := by
  unfold divFault; infer_instance

/-- The conversion `fscanf(vmIn, "%d", &x)`: the converted value, if any, and
the rest of the stream. -/
def scanInt : List Token → Option Int × List Token
  | Token.int v :: rest => (some v, rest)
  | other => (none, other)

/-- The function `executeInstruction`.  The result is `none` exactly when the
instruction divides (opcodes 16 and 18) with operands for which C defines no
quotient; otherwise it carries the new machine, the streams and the returned
value (`0` from opcode 11 and from the `default` branch, `1` after `break`). -/
def executeInstruction (vm : VirtualMachine) (ins : Instruction) (ch : Channels) :
    Option ExecResult :=
  if ins.op = 1 then
    -- lit
    some ⟨{ vm with RF := setCell vm.RF ins.r ins.m }, ch, 1⟩
  else if ins.op = 2 then
    -- rtn
    let sp := vm.BP - 1
    let pc := vm.stack (sp + 4)
    let bp := vm.stack (sp + 3)
    some ⟨{ vm with SP := sp, PC := pc, BP := bp }, ch, 1⟩
  else if ins.op = 3 then
    -- lod
    some ⟨{ vm with RF := setCell vm.RF ins.r (vm.stack (getBasePointer vm.stack vm.BP ins.l + ins.m)) }, ch, 1⟩
  else if ins.op = 4 then
    -- sto
    some ⟨{ vm with stack := setCell vm.stack (getBasePointer vm.stack vm.BP ins.l + ins.m) (vm.RF ins.r) }, ch, 1⟩
  else if ins.op = 5 then
    -- cal: four stores in program order, the second reads the stack after the first
    let s1 := setCell vm.stack (vm.SP + 1) 0
    let s2 := setCell s1 (vm.SP + 2) (getBasePointer s1 vm.BP ins.l)
    let s3 := setCell s2 (vm.SP + 3) vm.BP
    let s4 := setCell s3 (vm.SP + 4) vm.PC
    some ⟨{ vm with stack := s4, BP := vm.SP + 1, PC := ins.m }, ch, 1⟩
  else if ins.op = 6 then
    -- inc
    some ⟨{ vm with SP := vm.SP + ins.m }, ch, 1⟩
  else if ins.op = 7 then
    -- jmp
    some ⟨{ vm with PC := ins.m }, ch, 1⟩
  else if ins.op = 8 then
    -- jpc
    if vm.RF ins.r = 0 then some ⟨{ vm with PC := ins.m }, ch, 1⟩
    else some ⟨vm, ch, 1⟩
  else if ins.op = 9 then
    -- sio: write
    some ⟨vm, { ch with vmOut := ch.vmOut ++ [vm.RF ins.r] }, 1⟩
  else if ins.op = 10 then
    -- sio: read
    match scanInt ch.vmIn with
    | (some v, rest) =>
        some ⟨{ vm with RF := setCell vm.RF ins.r v }, { ch with vmIn := rest }, 1⟩
    | (none, rest) => some ⟨vm, { ch with vmIn := rest }, 1⟩
  else if ins.op = 11 then
    -- sio: halt
    some ⟨vm, ch, 0⟩
  else if ins.op = 12 then
    -- neg
    some ⟨{ vm with RF := setCell vm.RF ins.r (wrap32 (vm.RF ins.r * -1)) }, ch, 1⟩
  else if ins.op = 13 then
    -- add
    some ⟨{ vm with RF := setCell vm.RF ins.r (wrap32 (vm.RF ins.l + vm.RF ins.m)) }, ch, 1⟩
  else if ins.op = 14 then
    -- sub
    some ⟨{ vm with RF := setCell vm.RF ins.r (wrap32 (vm.RF ins.l - vm.RF ins.m)) }, ch, 1⟩
  else if ins.op = 15 then
    -- mul
    some ⟨{ vm with RF := setCell vm.RF ins.r (wrap32 (vm.RF ins.l * vm.RF ins.m)) }, ch, 1⟩
  else if ins.op = 16 then
    -- div
    if divFault (vm.RF ins.l) (vm.RF ins.m) then none
    else some ⟨{ vm with RF := setCell vm.RF ins.r (Int.tdiv (vm.RF ins.l) (vm.RF ins.m)) }, ch, 1⟩
  else if ins.op = 17 then
    -- odd
    some ⟨{ vm with RF := setCell vm.RF ins.r (Int.tmod (vm.RF ins.r) 2) }, ch, 1⟩
  else if ins.op = 18 then
    -- mod
    if divFault (vm.RF ins.l) (vm.RF ins.m) then none
    else some ⟨{ vm with RF := setCell vm.RF ins.r (Int.tmod (vm.RF ins.l) (vm.RF ins.m)) }, ch, 1⟩
  else if ins.op = 19 then
    -- eql
    some ⟨{ vm with RF := setCell vm.RF ins.r (boolInt (vm.RF ins.l = vm.RF ins.m)) }, ch, 1⟩
  else if ins.op = 20 then
    -- neq
    some ⟨{ vm with RF := setCell vm.RF ins.r (boolInt (vm.RF ins.l ≠ vm.RF ins.m)) }, ch, 1⟩
  else if ins.op = 21 then
    -- lss
    some ⟨{ vm with RF := setCell vm.RF ins.r (boolInt (vm.RF ins.l < vm.RF ins.m)) }, ch, 1⟩
  else if ins.op = 22 then
    -- leq
    some ⟨{ vm with RF := setCell vm.RF ins.r (boolInt (vm.RF ins.l ≤ vm.RF ins.m)) }, ch, 1⟩
  else if ins.op = 23 then
    -- gtr
    some ⟨{ vm with RF := setCell vm.RF ins.r (boolInt (vm.RF ins.l > vm.RF ins.m)) }, ch, 1⟩
  else if ins.op = 24 then
    -- geq
    some ⟨{ vm with RF := setCell vm.RF ins.r (boolInt (vm.RF ins.l ≥ vm.RF ins.m)) }, ch, 1⟩
  else
    -- default
    some ⟨vm, { ch with diag := ch.diag ++ ["Illegal instruction?"] }, 0⟩

/-! ## `readInstructions` and `dumpInstructions` -/

/-- The loop of `readInstructions` with the index `i` made explicit.  One call
of `fscanf(in, "%d %d %d %d", ...)` stores the fields it converts, in order,
and the loop goes on only when it converted all four. -/
def readInstructionsFrom : List Token → (Int → Instruction) → Nat → Nat × (Int → Instruction)
  | Token.int a :: Token.int b :: Token.int c :: Token.int d :: rest, ins, i =>
      readInstructionsFrom rest (setCell ins i ⟨a, b, c, d⟩) (i + 1)
  | Token.int a :: Token.int b :: Token.int c :: _, ins, i =>
      (i, setCell ins i { ins i with op := a, r := b, l := c })
  | Token.int a :: Token.int b :: _, ins, i =>
      (i, setCell ins i { ins i with op := a, r := b })
  | Token.int a :: _, ins, i =>
      (i, setCell ins i { ins i with op := a })
  | _, ins, i => (i, ins)

/-- The function `readInstructions`: the number of instructions read and the
code array as it is left. -/
def readInstructions (inp : List Token) (ins : Int → Instruction) : Nat × (Int → Instruction) :=
  readInstructionsFrom inp ins 0

/-- One row of the code listing: index, mnemonic, and the three operands. -/
structure CodeLine where
  idx : Int
  name : Option String
  r : Int
  l : Int
  m : Int
  deriving DecidableEq, Repr

/-- The function `dumpInstructions`: one row per loaded instruction (the header
row is constant and left out). -/
def dumpInstructions (ins : Int → Instruction) (numOfIns : Nat) : List CodeLine :=
  (List.range numOfIns).map fun i =>
    ⟨i, opcodeName (ins i).op, (ins i).r, (ins i).l, (ins i).m⟩

/-! ## `dumpStack` -/

/-- What `dumpStack` prints: a stack value (`"%3d "`) or the bar that opens an
activation record (`"| "`). -/
inductive StackItem where
  | num (v : Int)
  | bar
  deriving DecidableEq, Repr

/-- The `for(i = bp; i <= sp; i++)` loop of `dumpStack`: the cells
`stack[bp] .. stack[sp]`, none when `sp < bp`. -/
def dumpRecord (stack : Int → Int) (sp bp : Int) : List StackItem :=
  (List.range (sp - bp + 1).toNat).map fun k => StackItem.num (stack (bp + k))

/-- The function `dumpStack`.  The C function recurses along `stack[bp + 2]`
with no bound; the first argument bounds the recursion depth, and the result
is `none` when that depth does not suffice. -/
def dumpStack (stack : Int → Int) : Nat → Int → Int → Option (List StackItem)
  | 0, _, _ => none
  | depth + 1, sp, bp =>
    if bp = 0 then some []
    else
      let former :=
        if bp = 1 then some [StackItem.num 0]
        else dumpStack stack depth (bp - 1) (stack (bp + 2))
      match former with
      | none => none
      | some items =>
        if bp ≤ sp then some (items ++ StackItem.bar :: dumpRecord stack sp bp)
        else some items

/-! ## The loop of `simulateVM` -/

/-- One line of the execution trace: the executed instruction, the resulting
`PC`, `BP`, `SP`, and the stack dump. -/
structure TraceLine where
  currInst : Int
  name : Option String
  r : Int
  l : Int
  m : Int
  PC : Int
  BP : Int
  SP : Int
  frames : List StackItem
  deriving DecidableEq, Repr

/-- The variables of `simulateVM` that live across iterations of its loop,
with the trace written so far.  (`i` and `currAR` are declared in the source
and never used.) -/
structure Driver where
  vm : VirtualMachine
  ch : Channels
  outp : List TraceLine
  halt : Int
  currInst : Int
  numOfAR : Int
  prevCall : Int
  AR : Int → Int

/-- The body of the `while(halt)` loop: fetch with post-increment of `PC`,
execute, record the activation-record bookkeeping, print one trace line. -/
def loopBody (ins : Int → Instruction) (depth : Nat) (d : Driver) : Option Driver :=
  let currInst := d.vm.PC
  match executeInstruction { d.vm with PC := d.vm.PC + 1 } (ins currInst) d.ch with
  | none => none
  | some res =>
    let cur := ins currInst
    let viaInc : Bool := cur.op = 6 ∧ d.prevCall = 0 ∧ cur.m > 1
    let AR1 := if viaInc then setCell d.AR d.numOfAR res.vm.BP else d.AR
    let n1 := if viaInc then d.numOfAR + 1 else d.numOfAR
    let AR2 := if cur.op = 5 then setCell AR1 n1 res.vm.BP else AR1
    let n2 := if cur.op = 5 then n1 + 1 else n1
    let prevCall : Int := if cur.op = 5 then 1 else 0
    match dumpStack res.vm.stack depth res.vm.SP res.vm.BP with
    | none => none
    | some frames =>
      let line : TraceLine :=
        ⟨currInst, opcodeName cur.op, cur.r, cur.l, cur.m, res.vm.PC, res.vm.BP, res.vm.SP, frames⟩
      some ⟨res.vm, res.ch, d.outp ++ [line], res.ret, currInst, n2, prevCall, AR2⟩

/-- The `while(halt)` loop.  The second argument bounds the number of times the
test is evaluated; `none` when the loop has not ended within it, or when an
iteration has no result. -/
def whileLoop (ins : Int → Instruction) (depth : Nat) : Nat → Driver → Option Driver
  | 0, _ => none
  | fuel + 1, d =>
    if d.halt ≠ 0 then
      match loopBody ins depth d with
      | none => none
      | some d1 => whileLoop ins depth fuel d1
    else some d

/-- The driver variables as initialised at line 292, around a machine fresh out
of `initVM`. -/
def initDriver (vm : VirtualMachine) (ch : Channels) (AR : Int → Int) : Driver :=
  ⟨initVM vm, ch, [], 1, 0, 0, 0, AR⟩

/-- What `simulateVM` writes to `outp` (the code listing and the trace; the
fixed headers and the final `HLT` line are implied) and what it leaves in the
machine's streams. -/
structure Transcript where
  code : List CodeLine
  trace : List TraceLine
  ch : Channels

/-- The function `simulateVM`.  The arguments `code`, `vm` and `AR` are the
contents of the freshly allocated, uninitialised `ins`, `vm` and `AR`. -/
def simulateVM (inp : List Token) (ch : Channels) (code : Int → Instruction)
    (vm : VirtualMachine) (AR : Int → Int) (depth fuel : Nat) : Option Transcript :=
  let loaded := readInstructions inp code
  match whileLoop loaded.2 depth fuel (initDriver vm ch AR) with
  | none => none
  | some d => some ⟨dumpInstructions loaded.2 loaded.1, d.outp, d.ch⟩

/-! ## Sequences of steps -/

/-- A list of instructions handed to `executeInstruction` one after the other,
each call continuing from the machine and streams the previous one left. -/
def runSeq : List Instruction → VirtualMachine → Channels → Option (VirtualMachine × Channels)
  | [], vm, ch => some (vm, ch)
  | i :: rest, vm, ch =>
    match executeInstruction vm i ch with
    | none => none
    | some res => runSeq rest res.vm res.ch

/-- Every call in the sequence returns, and none of them changes `BP` or the
contents of the two stack cells `a` and `b`. -/
def frameKept (a b : Int) : List Instruction → VirtualMachine → Channels → Prop
  | [], _, _ => True
  | i :: rest, vm, ch =>
    match executeInstruction vm i ch with
    | none => False
    | some res =>
      res.vm.BP = vm.BP ∧ res.vm.stack a = vm.stack a ∧ res.vm.stack b = vm.stack b ∧
        frameKept a b rest res.vm res.ch

/-! ## Reference arithmetic

The specification's opcode table, written down on its own: each binary opcode
as a function of the two operand values, and a program of register
instructions as a fold over a register file, once over the integers and once
in the arithmetic of the C type `int`.  These are compared with
`executeInstruction` below. -/

/-- The value of `register[l] <op> register[m]` for the binary opcodes 13-16 and
18-24 in C, given the two operand values: `int` arithmetic for `+`, `-`, `*`,
truncation for `/` and `%`, and `0`/`1` for a comparison. -/
def aluOp (op a b : Int) : Int :=
  match op with
  | 13 => wrap32 (a + b)
  | 14 => wrap32 (a - b)
  | 15 => wrap32 (a * b)
  | 16 => Int.tdiv a b
  | 18 => Int.tmod a b
  | 19 => if a = b then 1 else 0
  | 20 => if a = b then 0 else 1
  | 21 => if a < b then 1 else 0
  | 22 => if a ≤ b then 1 else 0
  | 23 => if b < a then 1 else 0
  | 24 => if b ≤ a then 1 else 0
  | _ => 0

/-- The reference step of the specification on a register file alone, over the
integers: `LIT` puts `m` in `reg[r]`; `ADD`, `SUB`, `MUL` put
`reg[l] + reg[m]`, `reg[l] - reg[m]`, `reg[l] * reg[m]` in `reg[r]`; every
other register keeps its value. -/
def refStep (reg : Int → Int) (i : Instruction) : Int → Int :=
  fun j =>
    if j = i.r then
      (if i.op = 1 then i.m
       else if i.op = 13 then reg i.l + reg i.m
       else if i.op = 14 then reg i.l - reg i.m
       else if i.op = 15 then reg i.l * reg i.m
       else reg j)
    else reg j

/-- The reference result of a register program: the fold of `refStep`. -/
def refRun (prog : List Instruction) (reg : Int → Int) : Int → Int :=
  prog.foldl refStep reg

/-- The reference step with each sum, difference and product reduced to the
range of the C type `int`. -/
def intStep (reg : Int → Int) (i : Instruction) : Int → Int :=
  fun j =>
    if j = i.r then
      (if i.op = 1 then i.m
       else if i.op = 13 then wrap32 (reg i.l + reg i.m)
       else if i.op = 14 then wrap32 (reg i.l - reg i.m)
       else if i.op = 15 then wrap32 (reg i.l * reg i.m)
       else reg j)
    else reg j

/-- The fold of `intStep`. -/
def intRun (prog : List Instruction) (reg : Int → Int) : Int → Int :=
  prog.foldl intStep reg

/-- The value is one the C type `int` can hold. -/
def isInt32 (x : Int) : Prop := INT_MIN ≤ x ∧ x ≤ INT_MAX

instance (x : Int) : Decidable (isInt32 x) := by
  unfold isInt32; infer_instance

/-- The instruction is one of `LIT`, `ADD`, `SUB`, `MUL`. -/
def isRegArith (i : Instruction) : Prop := i.op = 1 ∨ i.op = 13 ∨ i.op = 14 ∨ i.op = 15

instance (i : Instruction) : Decidable (isRegArith i) := by
  unfold isRegArith; infer_instance

/-- The binary arithmetic and comparison opcodes: 13-16 and 18-24. -/
def isBinary (op : Int) : Prop := (13 ≤ op ∧ op ≤ 16) ∨ (18 ≤ op ∧ op ≤ 24)

instance (op : Int) : Decidable (isBinary op) := by
  unfold isBinary; infer_instance

/-! ## The rendering of a chain of frames, as the specification describes it -/

/-- The `n` cells from `stack[lo]` upwards, as printed values. -/
def slotsFrom (stack : Int → Int) : Int → Nat → List StackItem
  | _, 0 => []
  | lo, n + 1 => StackItem.num (stack lo) :: slotsFrom stack (lo + 1) n

/-- The cells `stack[lo] .. stack[hi]` as printed values; nothing when `hi < lo`. -/
def slots (stack : Int → Int) (lo hi : Int) : List StackItem :=
  slotsFrom stack lo (hi - lo + 1).toNat

/-- One bar-delimited group per frame, oldest first, for the frame bases `bs`
(oldest first) and the stack pointer `sp`: a frame that has a successor `c`
shows `stack[b .. c - 1]`, the last frame shows `stack[b .. sp]`. -/
def frameGroups (stack : Int → Int) (sp : Int) : List Int → List StackItem
  | [] => []
  | [b] => StackItem.bar :: slots stack b sp
  | b :: c :: rest =>
    (StackItem.bar :: slots stack b (c - 1)) ++ frameGroups stack sp (c :: rest)

/-- The list `bs` of frame bases, oldest first, is a dynamic chain: each base is
larger than its predecessor and its dynamic-link cell `stack[base + 2]` holds
the predecessor. -/
def isDynChain (stack : Int → Int) : List Int → Prop
  | [] => True
  | [_] => True
  | b :: c :: rest => b < c ∧ stack (c + 2) = b ∧ isDynChain stack (c :: rest)

/-- The number of bar-delimited groups in a rendering. -/
def groupCount (items : List StackItem) : Nat := items.count StackItem.bar

/-- The stack rendering on the trace line written last. -/
def lastFrames (d : Driver) : Option (List StackItem) :=
  d.outp.getLast?.map TraceLine.frames

/-- The loop of `simulateVM` after exactly `n` further iterations: each one
needs `halt` to be non-zero and the body to complete; `none` otherwise. -/
def loopSteps (code : Int → Instruction) (depth : Nat) : Nat → Driver → Option Driver
  | 0, d => some d
  | n + 1, d =>
    if d.halt ≠ 0 then
      match loopBody code depth d with
      | none => none
      | some d1 => loopSteps code depth n d1
    else none

/-- The next `n` iterations of the loop execute no `CAL`, no `RTN`, and no `STO`
whose target is the dynamic-link cell `stack[BP + 2]` of the current frame. -/
def calleeSafe (code : Int → Instruction) (depth : Nat) : Nat → Driver → Prop
  | 0, _ => True
  | n + 1, d =>
    (code d.vm.PC).op ≠ 5 ∧ (code d.vm.PC).op ≠ 2 ∧
    ((code d.vm.PC).op = 4 →
      getBasePointer d.vm.stack d.vm.BP (code d.vm.PC).l + (code d.vm.PC).m ≠ d.vm.BP + 2) ∧
    match loopBody code depth d with
    | none => True
    | some d1 => calleeSafe code depth n d1

/-- The rendering of a machine inside the callee of one call made from the
outermost frame when that frame held `s` cells: the sentinel, the caller's
group `stack[1 .. s]` and, when the callee holds a cell, its group
`stack[BP .. SP]`. -/
def calleeFrames (s : Int) (vm : VirtualMachine) : List StackItem :=
  StackItem.num 0 :: StackItem.bar :: slots vm.stack 1 s ++
    if vm.BP ≤ vm.SP then StackItem.bar :: slots vm.stack vm.BP vm.SP else []

/-! ## Groups of four integers -/

/-- The `k`-th complete group of four in a list of integers, as an instruction
record `op r l m`. -/
def groupAt (vals : List Int) (k : Nat) : Instruction :=
  ⟨vals.getD (4 * k) 0, vals.getD (4 * k + 1) 0, vals.getD (4 * k + 2) 0,
    vals.getD (4 * k + 3) 0⟩

/-! ## Frame invariants -/

/-- The base pointer lies within the stack: `1 ≤ BP ≤ SP + 1`. -/
def frameInv (vm : VirtualMachine) : Prop := 1 ≤ vm.BP ∧ vm.BP ≤ vm.SP + 1

instance (vm : VirtualMachine) : Decidable (frameInv vm) := by
  unfold frameInv; infer_instance

/-- Along the sequence, every `INC` leaves `SP` at `BP - 1` or above, and every
`RTN` finds a dynamic link `stack[BP + 2]` in `1 .. BP`. -/
def frameSafe : List Instruction → VirtualMachine → Channels → Prop
  | [], _, _ => True
  | i :: rest, vm, ch =>
    (i.op = 6 → vm.BP ≤ vm.SP + i.m + 1) ∧
    (i.op = 2 → 1 ≤ vm.stack (vm.BP + 2) ∧ vm.stack (vm.BP + 2) ≤ vm.BP) ∧
    match executeInstruction vm i ch with
    | none => True
    | some res => frameSafe rest res.vm res.ch

/-- The bases `dumpStack(stack, sp, bp)` visits: `bp` itself, and the dynamic
link `stack[b + 2]` of every visited base `b` other than 0 and 1. -/
inductive OnChain (stack : Int → Int) (bp : Int) : Int → Prop where
  | start : OnChain stack bp bp
  | link {b : Int} : OnChain stack bp b → b ≠ 0 → b ≠ 1 → OnChain stack bp (stack (b + 2))

/-- Along the sequence, every `CAL` is executed either in the outermost frame
holding at least one cell (`BP = 1`, `SP ≥ 1`) or with the dynamic-link cell of
the current frame inside the live stack (`BP + 2 ≤ SP`), no `RTN` is executed
in the outermost frame, and no `STO` writes the dynamic-link cell of a frame on
the dynamic chain. -/
def chainSafe : List Instruction → VirtualMachine → Channels → Prop
  | [], _, _ => True
  | i :: rest, vm, ch =>
    (i.op = 5 → (vm.BP = 1 ∧ 1 ≤ vm.SP) ∨ vm.BP + 2 ≤ vm.SP) ∧
    (i.op = 2 → vm.BP ≠ 1) ∧
    (i.op = 4 → ∀ b, OnChain vm.stack vm.BP b → b ≠ 0 → b ≠ 1 →
      getBasePointer vm.stack vm.BP i.l + i.m ≠ b + 2) ∧
    match executeInstruction vm i ch with
    | none => True
    | some res => chainSafe rest res.vm res.ch

/-- The frames of the machine form a dynamic chain that starts at the outermost
frame and ends at `BP`. -/
def ChainInv (vm : VirtualMachine) : Prop :=
  ∃ bs : List Int, bs.head? = some 1 ∧ bs.getLast? = some vm.BP ∧ isDynChain vm.stack bs

/-! ## Concrete machines and programs used as test inputs -/

/-- A machine whose memories hold `0` everywhere. -/
def zeroVM : VirtualMachine := ⟨0, 0, 0, fun _ => 0, fun _ => 0⟩

/-- Streams with nothing in them. -/
def noChannels : Channels := ⟨[], [], []⟩

/-- A program that leaves `BP = SP = 1` with the value 7 in `stack[2]`, the cell
just above the top of the stack: `lit 0 0 7; inc 0 0 2; sto 0 0 1; inc 0 0 -1`. -/
def shrinkProg : List Instruction :=
  [⟨1, 0, 0, 7⟩, ⟨6, 0, 0, 2⟩, ⟨4, 0, 0, 1⟩, ⟨6, 0, 0, -1⟩]

/-- A call body that allocates five cells, computes `5 + 3` in registers and
stores the sum in its first local: `inc 0 0 5; lit 0 0 5; lit 1 0 3;
add 2 0 1; sto 2 0 4`. -/
def bodyProg : List Instruction :=
  [⟨6, 0, 0, 5⟩, ⟨1, 0, 0, 5⟩, ⟨1, 1, 0, 3⟩, ⟨13, 2, 0, 1⟩, ⟨4, 2, 0, 4⟩]

/-- A machine in its outermost frame with four cells allocated and `PC = 6`. -/
def mainVM : VirtualMachine := ⟨1, 4, 6, fun _ => 0, fun _ => 0⟩

/-- The text of the five-instruction program `lit 0 0 5; lit 1 0 3; add 2 0 1;
sio 2 0 0; sio 0 0 0` with opcodes 1, 1, 13, 9, 11. -/
def addTokens : List Token :=
  [1, 0, 0, 5, 1, 1, 0, 3, 13, 2, 0, 1, 9, 2, 0, 0, 11, 0, 0, 0].map Token.int

/-- The code array after `readInstructions` has read `addTokens` into an array
of zero instructions. -/
def addCode : Int → Instruction := (readInstructions addTokens fun _ => ⟨0, 0, 0, 0⟩).2

/-- A register program with aliased operands: `lit 0 0 5; lit 1 0 3; add 2 0 1;
sub 0 2 0; mul 2 2 2`. -/
def regProg : List Instruction :=
  [⟨1, 0, 0, 5⟩, ⟨1, 1, 0, 3⟩, ⟨13, 2, 0, 1⟩, ⟨14, 0, 2, 0⟩, ⟨15, 2, 2, 2⟩]

/-- A register program whose sum leaves the range of `int`:
`lit 0 0 2147483647; add 0 0 0`. -/
def overflowProg : List Instruction := [⟨1, 0, 0, 2147483647⟩, ⟨13, 0, 0, 0⟩]

/-- A machine like `mainVM` with 21 in register 0 and 4 in register 1. -/
def regVM : VirtualMachine := ⟨1, 4, 6, fun i => if i = 0 then 21 else if i = 1 then 4 else 0, fun _ => 0⟩

/-- A code array holding `cal 0 0 9` in every cell. -/
def calCode : Int → Instruction := fun _ => ⟨5, 0, 0, 9⟩

/-- A machine two static levels deep: `BP = 20`, static link of frame 20 is 10,
static link of frame 10 is 1, `SP = 25`, and 77 in register 3. -/
def nestedVM : VirtualMachine :=
  ⟨20, 25, 0, fun i => if i = 3 then 77 else 0,
    fun i => if i = 21 then 10 else if i = 11 then 1 else 0⟩

/-- A program that calls twice in a row from a one-cell frame:
`inc 0 0 1; cal 0 0 0; cal 0 0 0`. -/
def callTwiceProg : List Instruction := [⟨6, 0, 0, 1⟩, ⟨5, 0, 0, 0⟩, ⟨5, 0, 0, 0⟩]

/-- A program with a call inside a call, each callee allocating its frame first:
`inc 0 0 4; cal 0 0 0; inc 0 0 5; cal 0 0 0; inc 0 0 4; rtn 0 0 0`. -/
def nestedCallProg : List Instruction :=
  [⟨6, 0, 0, 4⟩, ⟨5, 0, 0, 0⟩, ⟨6, 0, 0, 5⟩, ⟨5, 0, 0, 0⟩, ⟨6, 0, 0, 4⟩, ⟨2, 0, 0, 0⟩]

/-- A stack with two frames above the outermost one: the dynamic link of frame 20
is 10 and the dynamic link of frame 10 is 1. -/
def linkedStack : Int → Int := fun i => if i = 22 then 10 else if i = 12 then 1 else 0

/-- A program with one call whose callee allocates nothing:
`0: inc 0 0 4; 1: cal 0 0 3; 2: sio 0 0 0 (halt); 3: lit 0 0 5; 4: rtn 0 0 0`. -/
def callLitCode : Int → Instruction := fun k =>
  if k = 0 then ⟨6, 0, 0, 4⟩ else if k = 1 then ⟨5, 0, 0, 3⟩ else if k = 3 then ⟨1, 0, 0, 5⟩
  else if k = 4 then ⟨2, 0, 0, 0⟩ else ⟨11, 0, 0, 0⟩

/-- A program with one call whose callee allocates five cells and stores to its
first local: `0: inc 0 0 4; 1: cal 0 0 3; 2: sio 0 0 0 (halt); 3: inc 0 0 5;
4: lit 0 0 7; 5: sto 0 0 4; 6: rtn 0 0 0`. -/
def callIncCode : Int → Instruction := fun k =>
  if k = 0 then ⟨6, 0, 0, 4⟩ else if k = 1 then ⟨5, 0, 0, 3⟩ else if k = 3 then ⟨6, 0, 0, 5⟩
  else if k = 4 then ⟨1, 0, 0, 7⟩ else if k = 5 then ⟨4, 0, 0, 4⟩
  else if k = 6 then ⟨2, 0, 0, 0⟩ else ⟨11, 0, 0, 0⟩

/-! ## Basic facts -/

@[simp] theorem setCell_same {α : Type} (a : Int → α) (i : Int) (v : α) :
    setCell a i v i = v := by
  simp [setCell]

theorem setCell_other {α : Type} (a : Int → α) (i j : Int) (v : α) (h : j ≠ i) :
    setCell a i v j = a j := by
  simp [setCell, h]

theorem walkChain_iterate (stack : Int → Int) (n : Nat) (b : Int) :
    walkChain stack n b = (fun x => stack (x + 1))^[n] b := by
  induction n generalizing b with
  | zero => rfl
  | succ k ih => simp [walkChain, ih, Function.iterate_succ_apply]

theorem exec_cal (vm : VirtualMachine) (r l m : Int) (ch : Channels) :
    executeInstruction vm ⟨5, r, l, m⟩ ch =
      some ⟨{ vm with
                stack := setCell (setCell (setCell (setCell vm.stack (vm.SP + 1) 0) (vm.SP + 2)
                  (getBasePointer (setCell vm.stack (vm.SP + 1) 0) vm.BP l)) (vm.SP + 3) vm.BP)
                  (vm.SP + 4) vm.PC,
                BP := vm.SP + 1, PC := m }, ch, 1⟩ := by
  simp [executeInstruction]

theorem exec_rtn (vm : VirtualMachine) (r l m : Int) (ch : Channels) :
    executeInstruction vm ⟨2, r, l, m⟩ ch =
      some ⟨{ vm with SP := vm.BP - 1, PC := vm.stack (vm.BP - 1 + 4),
                      BP := vm.stack (vm.BP - 1 + 3) }, ch, 1⟩ := by
  simp [executeInstruction]

theorem exec_lod (vm : VirtualMachine) (r l m : Int) (ch : Channels) :
    executeInstruction vm ⟨3, r, l, m⟩ ch =
      some ⟨{ vm with RF := setCell vm.RF r (vm.stack (getBasePointer vm.stack vm.BP l + m)) },
            ch, 1⟩ := by
  simp [executeInstruction]

theorem exec_sto (vm : VirtualMachine) (r l m : Int) (ch : Channels) :
    executeInstruction vm ⟨4, r, l, m⟩ ch =
      some ⟨{ vm with stack := setCell vm.stack (getBasePointer vm.stack vm.BP l + m) (vm.RF r) },
            ch, 1⟩ := by
  simp [executeInstruction]

/-! ## The frame resolver -/

/-- C3: for a non-negative `L`, `getBasePointer(stack, b, L)` is the `L`-fold
iterate of `x ↦ stack[x + 1]` at `b`; it returns `b` itself for `L = 0`, and
walking `L + 1` levels from `b` is walking `L` levels from `stack[b + 1]`. -/
theorem getBasePointer_static_chain (stack : Int → Int) (b L : Int) (hL : 0 ≤ L) :
    getBasePointer stack b L = (fun x => stack (x + 1))^[L.toNat] b ∧
    getBasePointer stack b 0 = b ∧
    getBasePointer stack b (L + 1) = getBasePointer stack (stack (b + 1)) L := by
  refine ⟨walkChain_iterate stack _ b, rfl, ?_⟩
  have h : (L + 1).toNat = L.toNat + 1 := by omega
  simp [getBasePointer, h, walkChain]

theorem getBasePointer_static_chain_witness :
    (0 : Int) ≤ 2 ∧
    getBasePointer (fun i => if i = 8 then 4 else if i = 5 then 1 else 0) 7 2
      = (fun x => (fun i : Int => if i = 8 then 4 else if i = 5 then (1 : Int) else 0) (x + 1))^[(2 : Int).toNat] 7 :=
  ⟨by decide,
   (getBasePointer_static_chain (fun i => if i = 8 then 4 else if i = 5 then 1 else 0) 7 2
      (by decide)).1⟩

/-- C4: when the static link of the current frame is `b1` and the static link of
frame `b1` is `b0`, `LOD r 2 3` returns and leaves `stack[b0 + 3]` in
`register[r]`; no other stack cell (in particular no dynamic link) enters the
result.  If that cell still holds what a `STO r0 0 3` executed with `BP = b0`
left there, the loaded value is the register value that was stored. -/
theorem lod_two_levels_up (vm : VirtualMachine) (r : Int) (ch : Channels) (b1 b0 : Int)
    (h1 : vm.stack (vm.BP + 1) = b1) (h0 : vm.stack (b1 + 1) = b0) :
    ∃ res, executeInstruction vm ⟨3, r, 2, 3⟩ ch = some res ∧
      res.vm.RF r = vm.stack (b0 + 3) ∧
      (∀ (vm0 : VirtualMachine) (r0 : Int) (ch0 : Channels) (res0 : ExecResult),
        vm0.BP = b0 → executeInstruction vm0 ⟨4, r0, 0, 3⟩ ch0 = some res0 →
        vm.stack (b0 + 3) = res0.vm.stack (b0 + 3) → res.vm.RF r = vm0.RF r0) := by
  have hg : getBasePointer vm.stack vm.BP 2 = b0 := by
    have : (2 : Int).toNat = 2 := rfl
    simp [getBasePointer, this, walkChain, h1, h0]
  refine ⟨_, exec_lod vm r 2 3 ch, ?_, ?_⟩
  · simp [hg]
  · intro vm0 r0 ch0 res0 hb hs hcell
    rw [exec_sto] at hs
    have hres : res0.vm.stack (b0 + 3) = vm0.RF r0 := by
      cases hs
      simp [getBasePointer, walkChain, hb]
    simp [hg, hcell, hres]

theorem lod_two_levels_up_witness :
    (fun i : Int => if i = 21 then (10 : Int) else if i = 11 then 1 else if i = 4 then 99 else 0)
        ((20 : Int) + 1) = 10 ∧
    (fun i : Int => if i = 21 then (10 : Int) else if i = 11 then 1 else if i = 4 then 99 else 0)
        ((10 : Int) + 1) = 1 ∧
    ∃ res, executeInstruction
        ⟨20, 25, 0, fun _ => 0,
          fun i => if i = 21 then 10 else if i = 11 then 1 else if i = 4 then 99 else 0⟩
        ⟨3, 5, 2, 3⟩ noChannels = some res ∧ res.vm.RF 5 = 99 :=
  ⟨by decide, by decide,
    (lod_two_levels_up
      ⟨20, 25, 0, fun _ => 0,
        fun i => if i = 21 then 10 else if i = 11 then 1 else if i = 4 then 99 else 0⟩
      5 noChannels 10 1 (by decide) (by decide)).imp
      fun _ h => ⟨h.1, h.2.1.trans (by decide)⟩⟩

/-! ## `CAL` and `RTN` -/

/-- Zeroing the cell `s + 1` does not change a walk of the static chain that
never stands on base `s`. -/
theorem walkChain_setCell_of_avoid (stack : Int → Int) (s : Int) (n : Nat) (b : Int)
    (h : ∀ k, k < n → walkChain stack k b ≠ s) :
    walkChain (setCell stack (s + 1) 0) n b = walkChain stack n b := by
  induction n generalizing b with
  | zero => rfl
  | succ k ih =>
    have hb : b ≠ s := h 0 (Nat.succ_pos k)
    have hcell : setCell stack (s + 1) 0 (b + 1) = stack (b + 1) :=
      setCell_other stack (s + 1) (b + 1) 0 (by omega)
    simp only [walkChain, hcell]
    exact ih (stack (b + 1)) fun j hj => h (j + 1) (Nat.succ_lt_succ hj)

/-- C2, as stated, fails.  The program `shrinkProg`, run from a freshly
initialised machine, reaches `BP = SP = 1` with `stack[2] = 7`.  On the stack
as it is before `CAL 0 1 9` the resolver gives `resolve(BP, 1) = 7`, but the
static-link cell `stack[SP + 2]` holds `0` after the call: the resolver ran
after `stack[SP + 1]`, the cell it reads, had been set to `0`. -/
theorem cal_static_link_reads_zeroed_cell :
    ∃ vm1 ch1 res,
      runSeq shrinkProg (initVM zeroVM) noChannels = some (vm1, ch1) ∧
      vm1.SP = 1 ∧ vm1.BP = 1 ∧
      executeInstruction vm1 ⟨5, 0, 1, 9⟩ ch1 = some res ∧
      getBasePointer vm1.stack vm1.BP 1 = 7 ∧
      res.vm.stack (vm1.SP + 2) = 0 ∧
      res.vm.stack (vm1.SP + 2) ≠ getBasePointer vm1.stack vm1.BP 1 := by
  have h1 : (1 : Int).toNat = 1 := rfl
  have hrun : runSeq shrinkProg (initVM zeroVM) noChannels =
      some (⟨1, 1, 0, setCell (fun _ => 0) 0 7, setCell (fun _ => 0) 2 7⟩, noChannels) := by
    simp [shrinkProg, runSeq, executeInstruction, initVM, zeroVM, getBasePointer, walkChain]
  refine ⟨_, _, _, hrun, rfl, rfl, exec_cal _ 0 1 9 _, ?_, ?_, ?_⟩
  all_goals
    simp [getBasePointer, walkChain, setCell, h1]

/-- C2, amended: `CAL` returns, and afterwards `stack[s+1] = 0`, `stack[s+2]` is
`resolve(b, l)` evaluated on the stack in which `stack[s+1]` has already been
set to `0`, `stack[s+3] = b`, `stack[s+4] = p`, `BP = s + 1` and `PC = m`.  The
static link equals `resolve(b, l)` on the stack before the call whenever the
walk never stands on base `s`. -/
theorem cal_frame_header (vm : VirtualMachine) (r l m : Int) (ch : Channels) :
    ∃ res, executeInstruction vm ⟨5, r, l, m⟩ ch = some res ∧
      res.vm.stack (vm.SP + 1) = 0 ∧
      res.vm.stack (vm.SP + 2) = getBasePointer (setCell vm.stack (vm.SP + 1) 0) vm.BP l ∧
      res.vm.stack (vm.SP + 3) = vm.BP ∧
      res.vm.stack (vm.SP + 4) = vm.PC ∧
      res.vm.BP = vm.SP + 1 ∧ res.vm.PC = m ∧
      ((∀ k, k < l.toNat → walkChain vm.stack k vm.BP ≠ vm.SP) →
        res.vm.stack (vm.SP + 2) = getBasePointer vm.stack vm.BP l) := by
  refine ⟨_, exec_cal vm r l m ch, ?_, ?_, ?_, ?_, rfl, rfl, ?_⟩
  · simp [setCell]
  · simp [setCell]
  · simp [setCell]
  · simp [setCell]
  · intro h
    simp only [getBasePointer]
    rw [← walkChain_setCell_of_avoid vm.stack vm.SP l.toNat vm.BP h]
    simp [setCell]

/-- A sequence that keeps the frame returns from every call and ends in a
machine with the same `BP` and the same two cells. -/
theorem runSeq_of_frameKept (a b : Int) (mid : List Instruction) (vm : VirtualMachine)
    (ch : Channels) (h : frameKept a b mid vm ch) :
    ∃ vm2 ch2, runSeq mid vm ch = some (vm2, ch2) ∧
      vm2.BP = vm.BP ∧ vm2.stack a = vm.stack a ∧ vm2.stack b = vm.stack b := by
  induction mid generalizing vm ch with
  | nil => exact ⟨vm, ch, rfl, rfl, rfl, rfl⟩
  | cons i rest ih =>
    unfold frameKept at h
    unfold runSeq
    cases hstep : executeInstruction vm i ch with
    | none => simp [hstep] at h
    | some res =>
      simp only [hstep] at h ⊢
      obtain ⟨vm2, ch2, hrun, hbp, ha, hb⟩ := ih res.vm res.ch h.2.2.2
      exact ⟨vm2, ch2, hrun, hbp.trans h.1, ha.trans h.2.1, hb.trans h.2.2.1⟩

/-- C1: `CAL` returns; if the instructions executed after it all return and
leave `BP` and the two cells `stack[SP+3]`, `stack[SP+4]` of the new header as
they are, then they end in some machine, `RTN` returns from it, and `BP` and
`PC` are again what they were on entry to the `CAL` step. -/
theorem cal_rtn_restores (vm : VirtualMachine) (r l m : Int) (ch : Channels)
    (mid : List Instruction) (r2 l2 m2 : Int) :
    ∃ res1, executeInstruction vm ⟨5, r, l, m⟩ ch = some res1 ∧
      (frameKept (vm.SP + 3) (vm.SP + 4) mid res1.vm res1.ch →
        ∃ vm2 ch2 res3, runSeq mid res1.vm res1.ch = some (vm2, ch2) ∧
          executeInstruction vm2 ⟨2, r2, l2, m2⟩ ch2 = some res3 ∧
          res3.vm.BP = vm.BP ∧ res3.vm.PC = vm.PC) := by
  refine ⟨_, exec_cal vm r l m ch, ?_⟩
  intro hk
  obtain ⟨vm2, ch2, hrun, hbp, ha, hb⟩ := runSeq_of_frameKept _ _ mid _ _ hk
  refine ⟨vm2, ch2, _, hrun, exec_rtn vm2 r2 l2 m2 ch2, ?_, ?_⟩
  · have e : vm2.BP - 1 + 3 = vm.SP + 3 := by rw [hbp]; show vm.SP + 1 - 1 + _ = _; ring
    show vm2.stack (vm2.BP - 1 + 3) = vm.BP
    rw [e, ha]
    simp [setCell]
  · have e : vm2.BP - 1 + 4 = vm.SP + 4 := by rw [hbp]; show vm.SP + 1 - 1 + _ = _; ring
    show vm2.stack (vm2.BP - 1 + 4) = vm.PC
    rw [e, hb]
    simp [setCell]

theorem cal_rtn_restores_witness :
    ∃ res1, executeInstruction mainVM ⟨5, 0, 0, 20⟩ noChannels = some res1 ∧
      frameKept (mainVM.SP + 3) (mainVM.SP + 4) bodyProg res1.vm res1.ch ∧
      ∃ vm2 ch2 res3, runSeq bodyProg res1.vm res1.ch = some (vm2, ch2) ∧
        executeInstruction vm2 ⟨2, 0, 0, 0⟩ ch2 = some res3 ∧
        res3.vm.BP = mainVM.BP ∧ res3.vm.PC = mainVM.PC := by
  obtain ⟨res1, h1, h2⟩ := cal_rtn_restores mainVM 0 0 20 noChannels bodyProg 0 0 0
  have hk : frameKept (mainVM.SP + 3) (mainVM.SP + 4) bodyProg res1.vm res1.ch := by
    rw [exec_cal] at h1
    cases h1
    simp [frameKept, bodyProg, executeInstruction, mainVM, getBasePointer, walkChain, setCell]
  exact ⟨res1, h1, hk, h2 hk⟩

/-! ## Halt and continue -/

theorem exec_default (vm : VirtualMachine) (ins : Instruction) (ch : Channels)
    (h : ins.op < 1 ∨ 24 < ins.op) :
    executeInstruction vm ins ch =
      some ⟨vm, { ch with diag := ch.diag ++ ["Illegal instruction?"] }, 0⟩ := by
  have h1 : ins.op ≠ 1 := by omega
  have h2 : ins.op ≠ 2 := by omega
  have h3 : ins.op ≠ 3 := by omega
  have h4 : ins.op ≠ 4 := by omega
  have h5 : ins.op ≠ 5 := by omega
  have h6 : ins.op ≠ 6 := by omega
  have h7 : ins.op ≠ 7 := by omega
  have h8 : ins.op ≠ 8 := by omega
  have h9 : ins.op ≠ 9 := by omega
  have h10 : ins.op ≠ 10 := by omega
  have h11 : ins.op ≠ 11 := by omega
  have h12 : ins.op ≠ 12 := by omega
  have h13 : ins.op ≠ 13 := by omega
  have h14 : ins.op ≠ 14 := by omega
  have h15 : ins.op ≠ 15 := by omega
  have h16 : ins.op ≠ 16 := by omega
  have h17 : ins.op ≠ 17 := by omega
  have h18 : ins.op ≠ 18 := by omega
  have h19 : ins.op ≠ 19 := by omega
  have h20 : ins.op ≠ 20 := by omega
  have h21 : ins.op ≠ 21 := by omega
  have h22 : ins.op ≠ 22 := by omega
  have h23 : ins.op ≠ 23 := by omega
  have h24 : ins.op ≠ 24 := by omega
  simp [executeInstruction, *]

theorem whileLoop_halted (code : Int → Instruction) (depth fuel : Nat) (d : Driver)
    (h : d.halt = 0) : whileLoop code depth (fuel + 1) d = some d := by
  simp [whileLoop, h]

theorem whileLoop_running (code : Int → Instruction) (depth fuel : Nat) (d : Driver)
    (h : d.halt = 1) :
    whileLoop code depth (fuel + 1) d = (loopBody code depth d).bind (whileLoop code depth fuel) := by
  simp only [whileLoop, h]
  cases loopBody code depth d <;> simp

/-- C8: on an opcode outside 1..24 `executeInstruction` returns `0`, the value on
which the loop of `simulateVM` stops, and the machine (registers, stack, `PC`,
`BP`, `SP`) is the one it was given; `vmIn` and `vmOut` are untouched and the
diagnostic stream receives one message. -/
theorem illegal_opcode_halts (vm : VirtualMachine) (ins : Instruction) (ch : Channels)
    (h : ins.op < 1 ∨ 24 < ins.op) :
    ∃ res, executeInstruction vm ins ch = some res ∧
      res.ret = 0 ∧ res.vm = vm ∧
      res.ch.vmIn = ch.vmIn ∧ res.ch.vmOut = ch.vmOut ∧
      res.ch.diag = ch.diag ++ ["Illegal instruction?"] ∧
      (∀ (code : Int → Instruction) (depth fuel : Nat) (d : Driver),
        d.halt = res.ret → whileLoop code depth (fuel + 1) d = some d) :=
  ⟨_, exec_default vm ins ch h, rfl, rfl, rfl, rfl, rfl,
    fun code depth fuel d hd => whileLoop_halted code depth fuel d hd⟩

theorem illegal_opcode_halts_witness :
    ((-3 : Int) < 1 ∨ (24 : Int) < -3) ∧
    ∃ res, executeInstruction mainVM ⟨-3, 1, 2, 3⟩ noChannels = some res ∧
      res.ret = 0 ∧ res.vm = mainVM :=
  ⟨by decide,
    (illegal_opcode_halts mainVM ⟨-3, 1, 2, 3⟩ noChannels (by decide)).imp
      fun _ h => ⟨h.1, h.2.1, h.2.2.1⟩⟩

/-! ## The driver loop -/

/-- C5: on a code array whose cells 0..4 hold `lit 0 0 5; lit 1 0 3; add 2 0 1;
sio 2 0 0 (write); sio 0 0 0 (halt)`, the loop of `simulateVM`, started from
the initialised machine, ends; `vmOut` has received the single integer 8; the
trace has exactly five lines, for the instructions at 0, 1, 2, 3, 4; and the
loop does not end before its sixth test. -/
theorem add_program_prints_eight (code : Int → Instruction) (vm : VirtualMachine)
    (ch : Channels) (AR : Int → Int) (depth fuel : Nat)
    (h0 : code 0 = ⟨1, 0, 0, 5⟩) (h1 : code 1 = ⟨1, 1, 0, 3⟩) (h2 : code 2 = ⟨13, 2, 0, 1⟩)
    (h3 : code 3 = ⟨9, 2, 0, 0⟩) (h4 : code 4 = ⟨11, 0, 0, 0⟩) :
    (∃ d, whileLoop code (depth + 1) (fuel + 6) (initDriver vm ch AR) = some d ∧
      d.ch.vmOut = ch.vmOut ++ [8] ∧
      d.outp.map TraceLine.currInst = [0, 1, 2, 3, 4] ∧
      d.halt = 0 ∧ d.vm.PC = 5) ∧
    (∀ f, f ≤ 5 → whileLoop code (depth + 1) f (initDriver vm ch AR) = none) := by
  have hw : wrap32 8 = 8 := by decide
  constructor
  · simp [whileLoop, loopBody, initDriver, initVM, executeInstruction, dumpStack, dumpRecord,
      h0, h1, h2, h3, h4, setCell, hw]
  · intro f hf
    interval_cases f <;>
      simp [whileLoop, loopBody, initDriver, initVM, executeInstruction, dumpStack, dumpRecord,
        h0, h1, h2, h3, h4, setCell, hw]

theorem add_program_prints_eight_witness :
    addCode 0 = ⟨1, 0, 0, 5⟩ ∧ addCode 1 = ⟨1, 1, 0, 3⟩ ∧ addCode 2 = ⟨13, 2, 0, 1⟩ ∧
    addCode 3 = ⟨9, 2, 0, 0⟩ ∧ addCode 4 = ⟨11, 0, 0, 0⟩ ∧
    ∃ d, whileLoop addCode 1 6 (initDriver zeroVM noChannels fun _ => 0) = some d ∧
      d.ch.vmOut = [8] ∧ d.outp.map TraceLine.currInst = [0, 1, 2, 3, 4] :=
  ⟨by decide, by decide, by decide, by decide, by decide,
    (add_program_prints_eight addCode zeroVM noChannels (fun _ => 0) 0 0
      (by decide) (by decide) (by decide) (by decide) (by decide)).1.imp
      fun _ h => ⟨h.1, h.2.1, h.2.2.1⟩⟩

/-! ## Register arithmetic -/

theorem exec_regArith (vm : VirtualMachine) (i : Instruction) (ch : Channels)
    (h : isRegArith i) :
    executeInstruction vm i ch = some ⟨{ vm with RF := intStep vm.RF i }, ch, 1⟩ := by
  have hfun : ∀ v : Int, intStep vm.RF i i.r = v → setCell vm.RF i.r v = intStep vm.RF i := by
    intro v hv
    funext j
    by_cases hj : j = i.r
    · simp [setCell, hj, hv]
    · simp [setCell, intStep, hj]
  rcases h with h | h | h | h
  · simp [executeInstruction, h, hfun i.m (by simp [intStep, h])]
  · simp [executeInstruction, h, hfun (wrap32 (vm.RF i.l + vm.RF i.m)) (by simp [intStep, h])]
  · simp [executeInstruction, h, hfun (wrap32 (vm.RF i.l - vm.RF i.m)) (by simp [intStep, h])]
  · simp [executeInstruction, h, hfun (wrap32 (vm.RF i.l * vm.RF i.m)) (by simp [intStep, h])]

theorem wrap32_modEq (a : Int) : wrap32 a ≡ a [ZMOD 4294967296] := by
  unfold wrap32 Int.ModEq
  omega

theorem wrap32_congr {a b : Int} (h : a ≡ b [ZMOD 4294967296]) : wrap32 a = wrap32 b := by
  unfold wrap32
  unfold Int.ModEq at h
  omega

theorem wrap32_of_isInt32 {x : Int} (h : isInt32 x) : wrap32 x = x := by
  unfold isInt32 INT_MIN INT_MAX at h
  unfold wrap32
  omega

theorem isInt32_wrap32 (x : Int) : isInt32 (wrap32 x) := by
  unfold isInt32 INT_MIN INT_MAX wrap32
  omega

theorem intStep_modEq_refStep (A B : Int → Int) (i : Instruction) (hi : isRegArith i)
    (h : ∀ j, A j ≡ B j [ZMOD 4294967296]) (j : Int) :
    intStep A i j ≡ refStep B i j [ZMOD 4294967296] := by
  by_cases hj : j = i.r
  · rcases hi with h1 | h1 | h1 | h1
    · simp [intStep, refStep, hj, h1, Int.ModEq.refl]
    · simpa [intStep, refStep, hj, h1] using
        (wrap32_modEq _).trans ((h i.l).add (h i.m))
    · simpa [intStep, refStep, hj, h1] using
        (wrap32_modEq _).trans ((h i.l).sub (h i.m))
    · simpa [intStep, refStep, hj, h1] using
        (wrap32_modEq _).trans ((h i.l).mul (h i.m))
  · simpa [intStep, refStep, hj] using h j

theorem intRun_modEq_refRun (prog : List Instruction) (A B : Int → Int)
    (hp : ∀ i ∈ prog, isRegArith i) (h : ∀ j, A j ≡ B j [ZMOD 4294967296]) (j : Int) :
    intRun prog A j ≡ refRun prog B j [ZMOD 4294967296] := by
  induction prog generalizing A B with
  | nil => exact h j
  | cons i rest ih =>
    exact ih (intStep A i) (refStep B i) (fun k hk => hp k (List.mem_cons_of_mem i hk))
      (intStep_modEq_refStep A B i (hp i (List.mem_cons_self i rest)) h)

theorem intStep_isInt32 (A : Int → Int) (i : Instruction) (hi : isRegArith i)
    (hm : isInt32 i.m) (h : ∀ j, isInt32 (A j)) (j : Int) : isInt32 (intStep A i j) := by
  by_cases hj : j = i.r
  · rcases hi with h1 | h1 | h1 | h1
    · simpa [intStep, hj, h1] using hm
    · simpa [intStep, hj, h1] using isInt32_wrap32 _
    · simpa [intStep, hj, h1] using isInt32_wrap32 _
    · simpa [intStep, hj, h1] using isInt32_wrap32 _
  · simpa [intStep, hj] using h j

theorem intRun_isInt32 (prog : List Instruction) (A : Int → Int)
    (hp : ∀ i ∈ prog, isRegArith i) (hm : ∀ i ∈ prog, isInt32 i.m)
    (h : ∀ j, isInt32 (A j)) (j : Int) : isInt32 (intRun prog A j) := by
  induction prog generalizing A with
  | nil => exact h j
  | cons i rest ih =>
    exact ih (intStep A i) (fun k hk => hp k (List.mem_cons_of_mem i hk))
      (fun k hk => hm k (List.mem_cons_of_mem i hk))
      (intStep_isInt32 A i (hp i (List.mem_cons_self i rest))
        (hm i (List.mem_cons_self i rest)) h)

/-- C6, as stated, fails: `lit 0 0 2147483647; add 0 0 0` is a program of `LIT`
and `ADD` only, with register index 0 throughout.  Executed from `mainVM` it
leaves `-2` in register 0 (the sum does not fit the C type `int`), while the
reference arithmetic `reg[0] := reg[0] + reg[0]` gives 4294967294. -/
theorem int_overflow_differs_from_reference :
    (∀ i ∈ overflowProg, isRegArith i) ∧
    ∃ vm2, runSeq overflowProg mainVM noChannels = some (vm2, noChannels) ∧
      vm2.RF 0 = -2 ∧ refRun overflowProg mainVM.RF 0 = 4294967294 ∧
      vm2.RF ≠ refRun overflowProg mainVM.RF := by
  refine ⟨by decide, _, rfl, by decide, by decide, ?_⟩
  intro h
  have h0 := congrFun h 0
  revert h0
  decide

/-- C6, amended: a program made only of `LIT`, `ADD`, `SUB`, `MUL` with in-range
register indices, executed in order by `executeInstruction` from any machine,
returns from every step; the final register file is the fold `intRun` of the
reference arithmetic carried out in the C type `int` (sums, differences and
products reduced to 32-bit two's complement), and `stack`, `SP`, `BP` (and `PC`
and the streams) are unchanged.  When the initial registers and the literals
are `int` values, each final register is the value of the reference fold over
the integers reduced to the `int` range, hence equal to it whenever that value
is itself in range.  The property is claimed for indices inside the register
file only, where the source's accesses `RF[r]`, `RF[l]`, `RF[m]` stay inside
the array; `RF` is a total map here and the size of the register file is not
part of the source at hand, so the statement carries no bound on the indices
and the in-range programs are among those it covers.  Indices may coincide. -/
theorem reg_program_matches_int_reference (prog : List Instruction) (vm : VirtualMachine)
    (ch : Channels) (h : ∀ i ∈ prog, isRegArith i) :
    ∃ vm2, runSeq prog vm ch = some (vm2, ch) ∧
      vm2.RF = intRun prog vm.RF ∧
      vm2.stack = vm.stack ∧ vm2.SP = vm.SP ∧ vm2.BP = vm.BP ∧ vm2.PC = vm.PC ∧
      ((∀ i ∈ prog, isInt32 i.m) → (∀ j, isInt32 (vm.RF j)) →
        ∀ j, vm2.RF j = wrap32 (refRun prog vm.RF j) ∧
          (isInt32 (refRun prog vm.RF j) → vm2.RF j = refRun prog vm.RF j)) := by
  have hrun : ∀ (p : List Instruction) (v : VirtualMachine), (∀ i ∈ p, isRegArith i) →
      ∃ vm2, runSeq p v ch = some (vm2, ch) ∧ vm2.RF = intRun p v.RF ∧
        vm2.stack = v.stack ∧ vm2.SP = v.SP ∧ vm2.BP = v.BP ∧ vm2.PC = v.PC := by
    intro p
    induction p with
    | nil => exact fun v _ => ⟨v, rfl, rfl, rfl, rfl, rfl, rfl⟩
    | cons i rest ih =>
      intro v hp
      have hi : isRegArith i := hp i (List.mem_cons_self i rest)
      obtain ⟨vm2, hr, hrf, hst, hsp, hbp, hpc⟩ :=
        ih { v with RF := intStep v.RF i } fun j hj => hp j (List.mem_cons_of_mem i hj)
      refine ⟨vm2, ?_, ?_, hst, hsp, hbp, hpc⟩
      · simp [runSeq, exec_regArith v i ch hi, hr]
      · simpa [intRun] using hrf
  obtain ⟨vm2, hr, hrf, hst, hsp, hbp, hpc⟩ := hrun prog vm h
  refine ⟨vm2, hr, hrf, hst, hsp, hbp, hpc, ?_⟩
  intro hm hreg j
  have hin : isInt32 (vm2.RF j) := by
    rw [hrf]
    exact intRun_isInt32 prog vm.RF h hm hreg j
  have hmod : vm2.RF j ≡ refRun prog vm.RF j [ZMOD 4294967296] := by
    rw [hrf]
    exact intRun_modEq_refRun prog vm.RF vm.RF h (fun _ => Int.ModEq.refl _) j
  have hw : vm2.RF j = wrap32 (refRun prog vm.RF j) :=
    (wrap32_of_isInt32 hin).symm.trans (wrap32_congr hmod)
  exact ⟨hw, fun hfit => hw.trans (wrap32_of_isInt32 hfit)⟩

theorem reg_program_matches_int_reference_witness :
    (∀ i ∈ regProg, isRegArith i) ∧
    ∃ vm2, runSeq regProg mainVM noChannels = some (vm2, noChannels) ∧
      vm2.RF = intRun regProg mainVM.RF ∧ refRun regProg mainVM.RF 0 = 3 ∧
      refRun regProg mainVM.RF 2 = 64 ∧ vm2.RF 2 = refRun regProg mainVM.RF 2 :=
  ⟨by decide,
    (reg_program_matches_int_reference regProg mainVM noChannels (by decide)).imp
      fun _ h => ⟨h.1, h.2.1, by decide, by decide,
        ((h.2.2.2.2.2.2 (by decide) (fun _ => (by decide : isInt32 0)) 2).2 (by decide))⟩⟩

theorem isBinary_cases (op : Int) (h : isBinary op) :
    op = 13 ∨ op = 14 ∨ op = 15 ∨ op = 16 ∨ op = 18 ∨ op = 19 ∨ op = 20 ∨ op = 21 ∨
      op = 22 ∨ op = 23 ∨ op = 24 := by
  unfold isBinary at h
  omega

theorem exec_binary (vm : VirtualMachine) (op r l m : Int) (ch : Channels)
    (hop : isBinary op) :
    executeInstruction vm ⟨op, r, l, m⟩ ch =
      if (op = 16 ∨ op = 18) ∧ divFault (vm.RF l) (vm.RF m) then none
      else some ⟨{ vm with RF := setCell vm.RF r (aluOp op (vm.RF l) (vm.RF m)) }, ch, 1⟩ := by
  rcases isBinary_cases op hop with h | h | h | h | h | h | h | h | h | h | h <;> subst h
  · simp [executeInstruction, aluOp]
  · simp [executeInstruction, aluOp]
  · simp [executeInstruction, aluOp]
  · by_cases hf : divFault (vm.RF l) (vm.RF m) <;> simp [executeInstruction, aluOp, hf]
  · by_cases hf : divFault (vm.RF l) (vm.RF m) <;> simp [executeInstruction, aluOp, hf]
  · simp [executeInstruction, aluOp, boolInt]
  · by_cases he : vm.RF l = vm.RF m <;> simp [executeInstruction, aluOp, boolInt, he]
  · simp [executeInstruction, aluOp, boolInt]
  · simp [executeInstruction, aluOp, boolInt]
  · simp [executeInstruction, aluOp, boolInt]
  · simp [executeInstruction, aluOp, boolInt]

/-- C7: for each binary arithmetic or comparison opcode (13-16, 18-24) and any
register indices `r`, `l`, `m`, equal or not: whenever the step returns,
`register[r]` holds `aluOp` applied to the values `register[l]` and
`register[m]` of the machine before the step and every other register is
unchanged; and the step fails to return only for `DIV` and `MOD` on operands
for which C defines no quotient (divisor 0, or `INT_MIN` by `-1`). -/
theorem binary_op_reads_old_registers (vm : VirtualMachine) (op r l m : Int) (ch : Channels)
    (hop : isBinary op) :
    (∀ res, executeInstruction vm ⟨op, r, l, m⟩ ch = some res →
      res.vm.RF r = aluOp op (vm.RF l) (vm.RF m) ∧ ∀ j, j ≠ r → res.vm.RF j = vm.RF j) ∧
    (executeInstruction vm ⟨op, r, l, m⟩ ch = none ↔
      (op = 16 ∨ op = 18) ∧ divFault (vm.RF l) (vm.RF m)) := by
  rw [exec_binary vm op r l m ch hop]
  by_cases hf : (op = 16 ∨ op = 18) ∧ divFault (vm.RF l) (vm.RF m)
  · simp [hf]
  · simp only [hf, if_false]
    refine ⟨?_, by simp⟩
    intro res hres
    cases hres
    exact ⟨by simp, fun j hj => setCell_other _ _ _ _ hj⟩

theorem binary_op_reads_old_registers_witness :
    isBinary 14 ∧
    ∃ res, executeInstruction regVM ⟨14, 0, 0, 1⟩ noChannels = some res ∧
      res.vm.RF 0 = 17 ∧ res.vm.RF 1 = 4 :=
  ⟨by decide, _, rfl,
    ((binary_op_reads_old_registers regVM 14 0 0 1 noChannels (by decide)).1 _ rfl).1.trans
      (by decide),
    by decide⟩

/-! ## The returned value -/

theorem opcode_cases (ins : Instruction) (hlo : 1 ≤ ins.op) (hhi : ins.op ≤ 24) :
    ins.op = 1 ∨ ins.op = 2 ∨ ins.op = 3 ∨ ins.op = 4 ∨ ins.op = 5 ∨ ins.op = 6 ∨
      ins.op = 7 ∨ ins.op = 8 ∨ ins.op = 9 ∨ ins.op = 10 ∨ ins.op = 11 ∨ ins.op = 12 ∨
      ins.op = 13 ∨ ins.op = 14 ∨ ins.op = 15 ∨ ins.op = 16 ∨ ins.op = 17 ∨ ins.op = 18 ∨
      ins.op = 19 ∨ ins.op = 20 ∨ ins.op = 21 ∨ ins.op = 22 ∨ ins.op = 23 ∨ ins.op = 24 := by
  omega

theorem exec_ret_one (vm : VirtualMachine) (ins : Instruction) (ch : Channels)
    (res : ExecResult) (hlo : 1 ≤ ins.op) (hhi : ins.op ≤ 24) (h11 : ins.op ≠ 11)
    (h : executeInstruction vm ins ch = some res) : res.ret = 1 := by
  rcases opcode_cases ins hlo hhi with hk | hk | hk | hk | hk | hk | hk | hk | hk | hk | hk | hk |
      hk | hk | hk | hk | hk | hk | hk | hk | hk | hk | hk | hk
  all_goals
    first
    | exact absurd hk h11
    | (simp [executeInstruction, hk] at h
       first
       | (subst h; rfl)
       | (rw [← h.2])
       | (split at h <;> simp at h <;> subst h <;> rfl))

theorem exec_none_iff (vm : VirtualMachine) (ins : Instruction) (ch : Channels) :
    executeInstruction vm ins ch = none ↔
      (ins.op = 16 ∨ ins.op = 18) ∧ divFault (vm.RF ins.l) (vm.RF ins.m) := by
  by_cases hr : 1 ≤ ins.op ∧ ins.op ≤ 24
  · rcases opcode_cases ins hr.1 hr.2 with hk | hk | hk | hk | hk | hk | hk | hk | hk | hk | hk | hk |
      hk | hk | hk | hk | hk | hk | hk | hk | hk | hk | hk | hk
    all_goals
      simp [executeInstruction, hk]
      try (split <;> simp)
  · have hd : ins.op < 1 ∨ 24 < ins.op := by omega
    have h16 : ins.op ≠ 16 := by omega
    have h18 : ins.op ≠ 18 := by omega
    simp [exec_default vm ins ch hd, h16, h18]

theorem exec_halt (vm : VirtualMachine) (ins : Instruction) (ch : Channels)
    (h : ins.op = 11) : executeInstruction vm ins ch = some ⟨vm, ch, 0⟩ := by
  simp [executeInstruction, h]

/-- C9, as stated, fails: opcode 16 is in 1..24 and is not 11, yet on a machine
whose register 0 holds 0 the instruction `div 0 0 0` divides by zero and
`executeInstruction` returns nothing, so it does not return the value on which
the loop continues. -/
theorem div_by_zero_returns_nothing :
    (1 : Int) ≤ 16 ∧ (16 : Int) ≤ 24 ∧ (16 : Int) ≠ 11 ∧ zeroVM.RF 0 = 0 ∧
    executeInstruction zeroVM ⟨16, 0, 0, 0⟩ noChannels = none ∧
    ¬ ∃ res, executeInstruction zeroVM ⟨16, 0, 0, 0⟩ noChannels = some res ∧ res.ret = 1 := by
  have h : executeInstruction zeroVM ⟨16, 0, 0, 0⟩ noChannels = none := by
    simp [executeInstruction, zeroVM, divFault]
  refine ⟨by decide, by decide, by decide, rfl, h, ?_⟩
  rintro ⟨res, hres, -⟩
  rw [h] at hres
  cases hres

/-- C9, amended: on opcode 11 `executeInstruction` returns `0`, on which the loop
of `simulateVM` stops, and machine and streams are unchanged.  On an opcode in
1..24 other than 11 it returns `1`, on which the loop runs its body again,
except that `DIV` (16) and `MOD` (18) return nothing when `register[m]` is 0 or
when `register[l]` is `INT_MIN` and `register[m]` is `-1`; these are the only
cases without a return. -/
theorem halt_and_continue_values (vm : VirtualMachine) (ins : Instruction) (ch : Channels) :
    (ins.op = 11 →
      ∃ res, executeInstruction vm ins ch = some res ∧ res.ret = 0 ∧ res.vm = vm ∧ res.ch = ch ∧
        ∀ (code : Int → Instruction) (depth fuel : Nat) (d : Driver),
          d.halt = res.ret → whileLoop code depth (fuel + 1) d = some d) ∧
    (1 ≤ ins.op → ins.op ≤ 24 → ins.op ≠ 11 →
      (executeInstruction vm ins ch = none ↔
        (ins.op = 16 ∨ ins.op = 18) ∧ divFault (vm.RF ins.l) (vm.RF ins.m)) ∧
      (¬ ((ins.op = 16 ∨ ins.op = 18) ∧ divFault (vm.RF ins.l) (vm.RF ins.m)) →
        ∃ res, executeInstruction vm ins ch = some res ∧ res.ret = 1 ∧
          ∀ (code : Int → Instruction) (depth fuel : Nat) (d : Driver),
            d.halt = res.ret →
            whileLoop code depth (fuel + 1) d =
              (loopBody code depth d).bind (whileLoop code depth fuel))) := by
  refine ⟨fun h => ⟨_, exec_halt vm ins ch h, rfl, rfl, rfl, ?_⟩, fun hlo hhi h11 => ⟨?_, ?_⟩⟩
  · exact fun code depth fuel d hd => whileLoop_halted code depth fuel d hd
  · exact exec_none_iff vm ins ch
  · intro hf
    cases hres : executeInstruction vm ins ch with
    | none => exact absurd ((exec_none_iff vm ins ch).1 hres) hf
    | some res =>
      have hret : res.ret = 1 := exec_ret_one vm ins ch res hlo hhi h11 hres
      exact ⟨res, rfl, hret, fun code depth fuel d hd =>
        whileLoop_running code depth fuel d (hd.trans hret)⟩

theorem halt_and_continue_values_witness :
    (∃ res, executeInstruction regVM ⟨11, 0, 0, 0⟩ noChannels = some res ∧ res.ret = 0 ∧
      res.vm = regVM) ∧
    (∃ res, executeInstruction regVM ⟨16, 2, 0, 1⟩ noChannels = some res ∧ res.ret = 1) :=
  ⟨((halt_and_continue_values regVM ⟨11, 0, 0, 0⟩ noChannels).1 rfl).imp
      fun _ h => ⟨h.1, h.2.1, h.2.2.1⟩,
    (((halt_and_continue_values regVM ⟨16, 2, 0, 1⟩ noChannels).2
        (by decide) (by decide) (by decide)).2 (by decide)).imp
      fun _ h => ⟨h.1, h.2.1⟩⟩

/-! ## The program counter across one loop iteration -/

theorem exec_pc_kept (vm : VirtualMachine) (ins : Instruction) (ch : Channels)
    (res : ExecResult) (h2 : ins.op ≠ 2) (h5 : ins.op ≠ 5) (h7 : ins.op ≠ 7) (h8 : ins.op ≠ 8)
    (h : executeInstruction vm ins ch = some res) : res.vm.PC = vm.PC := by
  by_cases hr : 1 ≤ ins.op ∧ ins.op ≤ 24
  · rcases opcode_cases ins hr.1 hr.2 with hk | hk | hk | hk | hk | hk | hk | hk | hk | hk | hk | hk |
      hk | hk | hk | hk | hk | hk | hk | hk | hk | hk | hk | hk
    all_goals
      first
      | exact absurd hk h2
      | exact absurd hk h5
      | exact absurd hk h7
      | exact absurd hk h8
      | (simp [executeInstruction, hk] at h
         first
         | (subst h; rfl)
         | (rw [← h.2])
         | (split at h <;> simp at h <;> subst h <;> rfl))
  · rw [exec_default vm ins ch (by omega)] at h
    cases h
    rfl

theorem loopBody_some (code : Int → Instruction) (depth : Nat) (d d1 : Driver)
    (h : loopBody code depth d = some d1) :
    ∃ res, executeInstruction { d.vm with PC := d.vm.PC + 1 } (code d.vm.PC) d.ch = some res ∧
      (dumpStack res.vm.stack depth res.vm.SP res.vm.BP).isSome = true ∧ d1.vm = res.vm := by
  unfold loopBody at h
  cases hres : executeInstruction { d.vm with PC := d.vm.PC + 1 } (code d.vm.PC) d.ch with
  | none => simp [hres] at h
  | some res =>
    simp only [hres] at h
    cases hdump : dumpStack res.vm.stack depth res.vm.SP res.vm.BP with
    | none => simp [hdump] at h
    | some frames =>
      simp only [hdump] at h
      cases h
      exact ⟨res, rfl, by simp [hdump], rfl⟩

theorem loopBody_of_some (code : Int → Instruction) (depth : Nat) (d : Driver)
    (res : ExecResult)
    (hres : executeInstruction { d.vm with PC := d.vm.PC + 1 } (code d.vm.PC) d.ch = some res)
    (hdump : (dumpStack res.vm.stack depth res.vm.SP res.vm.BP).isSome = true) :
    ∃ d1, loopBody code depth d = some d1 := by
  obtain ⟨frames, hf⟩ := Option.isSome_iff_exists.1 hdump
  unfold loopBody
  simp only [hres, hf]
  exact ⟨_, rfl⟩

/-- C10: one iteration of the loop of `simulateVM` that fetches the instruction
at index `k = PC`.  Whenever the iteration completes: after `JMP m`, after
`JPC r m` with `register[r] = 0`, and after `CAL l m`, `PC` is `m`, and for
`CAL` the return-address cell of the new frame, `stack[BP + 3]`, holds `k + 1`;
after `JPC` with `register[r] ≠ 0` and after every opcode other than `RTN`,
`CAL`, `JMP`, `JPC` (illegal ones included), `PC` is `k + 1`.  The iteration
completes exactly when the step returns and the recursion of `dumpStack` on the
resulting stack ends within the given depth. -/
theorem loop_iteration_pc (code : Int → Instruction) (depth : Nat) (d : Driver) :
    (∀ d1, loopBody code depth d = some d1 →
      ((code d.vm.PC).op = 7 → d1.vm.PC = (code d.vm.PC).m) ∧
      ((code d.vm.PC).op = 8 → d.vm.RF (code d.vm.PC).r = 0 → d1.vm.PC = (code d.vm.PC).m) ∧
      ((code d.vm.PC).op = 5 →
        d1.vm.PC = (code d.vm.PC).m ∧ d1.vm.stack (d1.vm.BP + 3) = d.vm.PC + 1) ∧
      ((code d.vm.PC).op = 8 → d.vm.RF (code d.vm.PC).r ≠ 0 → d1.vm.PC = d.vm.PC + 1) ∧
      ((code d.vm.PC).op ≠ 2 → (code d.vm.PC).op ≠ 5 → (code d.vm.PC).op ≠ 7 →
        (code d.vm.PC).op ≠ 8 → d1.vm.PC = d.vm.PC + 1)) ∧
    ((∃ d1, loopBody code depth d = some d1) ↔
      ∃ res, executeInstruction { d.vm with PC := d.vm.PC + 1 } (code d.vm.PC) d.ch = some res ∧
        (dumpStack res.vm.stack depth res.vm.SP res.vm.BP).isSome = true) := by
  constructor
  · intro d1 h
    obtain ⟨res, hres, -, hvm⟩ := loopBody_some code depth d d1 h
    rw [hvm]
    refine ⟨?_, ?_, ?_, ?_, ?_⟩
    · intro h7
      simp [executeInstruction, h7] at hres
      subst hres
      rfl
    · intro h8 hz
      simp [executeInstruction, h8, hz] at hres
      subst hres
      rfl
    · intro h5
      simp [executeInstruction, h5] at hres
      subst hres
      refine ⟨rfl, ?_⟩
      show setCell _ (d.vm.SP + 4) (d.vm.PC + 1) (d.vm.SP + 1 + 3) = d.vm.PC + 1
      have e : d.vm.SP + 1 + 3 = d.vm.SP + 4 := by ring
      rw [e, setCell_same]
    · intro h8 hz
      simp [executeInstruction, h8, hz] at hres
      subst hres
      rfl
    · intro h2 h5 h7 h8
      exact exec_pc_kept _ _ _ res h2 h5 h7 h8 hres
  · constructor
    · rintro ⟨d1, h⟩
      obtain ⟨res, hres, hdump, -⟩ := loopBody_some code depth d d1 h
      exact ⟨res, hres, hdump⟩
    · rintro ⟨res, hres, hdump⟩
      exact loopBody_of_some code depth d res hres hdump

theorem loop_iteration_pc_witness :
    ∃ d1, loopBody calCode 1 (initDriver zeroVM noChannels fun _ => 0) = some d1 ∧
      d1.vm.PC = 9 ∧ d1.vm.stack (d1.vm.BP + 3) = 0 + 1 :=
  ⟨_, rfl,
    ((loop_iteration_pc calCode 1 (initDriver zeroVM noChannels fun _ => 0)).1 _ rfl).2.2.1 rfl⟩

/-! ## Stack pointer and stack contents across a call -/

theorem exec_inc (vm : VirtualMachine) (r l m : Int) (ch : Channels) :
    executeInstruction vm ⟨6, r, l, m⟩ ch = some ⟨{ vm with SP := vm.SP + m }, ch, 1⟩ := by
  simp [executeInstruction]

theorem runSeq_cons_of_exec (i : Instruction) (rest : List Instruction) (vm : VirtualMachine)
    (ch : Channels) (res : ExecResult) (h : executeInstruction vm i ch = some res) :
    runSeq (i :: rest) vm ch = runSeq rest res.vm res.ch := by
  simp [runSeq, h]

theorem runSeq_append (p q : List Instruction) (vm : VirtualMachine) (ch : Channels) :
    runSeq (p ++ q) vm ch = (runSeq p vm ch).bind fun s => runSeq q s.1 s.2 := by
  induction p generalizing vm ch with
  | nil => rfl
  | cons i rest ih =>
    simp only [List.cons_append, runSeq]
    cases executeInstruction vm i ch with
    | none => rfl
    | some res => exact ih res.vm res.ch

theorem runSeq_incs (incs : List Instruction) (vm : VirtualMachine) (ch : Channels)
    (h : ∀ i ∈ incs, i.op = 6) :
    ∃ vm2, runSeq incs vm ch = some (vm2, ch) ∧ vm2.BP = vm.BP ∧ vm2.stack = vm.stack := by
  induction incs generalizing vm with
  | nil => exact ⟨vm, rfl, rfl, rfl⟩
  | cons i rest ih =>
    have hi : i.op = 6 := h i (List.mem_cons_self i rest)
    obtain ⟨vm2, hr, hb, hs⟩ :=
      ih { vm with SP := vm.SP + i.m } fun j hj => h j (List.mem_cons_of_mem i hj)
    refine ⟨vm2, ?_, hb, hs⟩
    have he : executeInstruction vm i ch = some ⟨{ vm with SP := vm.SP + i.m }, ch, 1⟩ := by
      simp [executeInstruction, hi]
    simp [runSeq, he, hr]

/-- C15, as stated, fails: from `mainVM` (`BP = 1`, `SP = 4`) the sequence
`cal 0 0 20; inc 0 0 3; rtn 0 0 0` ends with `SP = 4`, while the `BP` held
before the `CAL`, less one, is 0. -/
theorem cal_inc_rtn_sp_is_not_old_bp :
    ∃ vm3, runSeq [⟨5, 0, 0, 20⟩, ⟨6, 0, 0, 3⟩, ⟨2, 0, 0, 0⟩] mainVM noChannels
        = some (vm3, noChannels) ∧
      vm3.SP = 4 ∧ mainVM.BP - 1 = 0 ∧ vm3.SP ≠ mainVM.BP - 1 := by
  simp only [runSeq, exec_cal, exec_inc, exec_rtn]
  exact ⟨_, rfl, rfl, rfl, by decide⟩

/-- C15, amended: `CAL`, then `INC k`, then `RTN` all return and leave `SP` equal
to the `SP` held before the `CAL`, which is the callee's `BP` less one; that is
the `BP` held before the `CAL` less one exactly when the caller's frame was
empty (`BP = SP + 1`).  `BP` and `PC` are those held before the `CAL`. -/
theorem cal_inc_rtn_sp (vm : VirtualMachine) (r l m r1 l1 k r2 l2 m2 : Int) (ch : Channels) :
    ∃ vm3, runSeq [⟨5, r, l, m⟩, ⟨6, r1, l1, k⟩, ⟨2, r2, l2, m2⟩] vm ch = some (vm3, ch) ∧
      vm3.SP = vm.SP ∧ (vm3.SP = vm.BP - 1 ↔ vm.BP = vm.SP + 1) ∧
      vm3.BP = vm.BP ∧ vm3.PC = vm.PC := by
  simp only [runSeq, exec_cal, exec_inc, exec_rtn]
  refine ⟨_, rfl, ?_, ?_, ?_, ?_⟩
  · show vm.SP + 1 - 1 = vm.SP
    ring
  · show vm.SP + 1 - 1 = vm.BP - 1 ↔ vm.BP = vm.SP + 1
    constructor <;> intro h <;> omega
  · show setCell _ _ _ (vm.SP + 1 - 1 + 3) = vm.BP
    have e : vm.SP + 1 - 1 + 3 = vm.SP + 3 := by ring
    rw [e, setCell_other _ _ _ _ (by omega), setCell_same]
  · show setCell _ _ _ (vm.SP + 1 - 1 + 4) = vm.PC
    have e : vm.SP + 1 - 1 + 4 = vm.SP + 4 := by ring
    rw [e, setCell_same]

/-- C18: `CAL`, then any list of `INC` instructions, then `RTN` all return; `SP`
is afterwards the `SP` held before the `CAL`, and every stack cell at an index
`≤ SP` holds the value it held before the `CAL`. -/
theorem cal_incs_rtn_keeps_stack_below (vm : VirtualMachine) (cal rtn : Instruction)
    (incs : List Instruction) (ch : Channels)
    (hc : cal.op = 5) (hr : rtn.op = 2) (hi : ∀ i ∈ incs, i.op = 6) :
    ∃ vm3, runSeq (cal :: incs ++ [rtn]) vm ch = some (vm3, ch) ∧
      vm3.SP = vm.SP ∧ ∀ i, i ≤ vm.SP → vm3.stack i = vm.stack i := by
  obtain ⟨op, r, l, m⟩ := cal
  obtain ⟨op2, r2, l2, m2⟩ := rtn
  simp only at hc hr
  subst hc hr
  obtain ⟨res, hres, hresbp, hresst, hresch⟩ :
      ∃ res, executeInstruction vm ⟨5, r, l, m⟩ ch = some res ∧ res.vm.BP = vm.SP + 1 ∧
        (∀ i, i ≤ vm.SP → res.vm.stack i = vm.stack i) ∧ res.ch = ch := by
    refine ⟨_, exec_cal vm r l m ch, rfl, fun i hi => ?_, rfl⟩
    show setCell _ _ _ i = vm.stack i
    rw [setCell_other _ _ _ _ (by omega), setCell_other _ _ _ _ (by omega),
      setCell_other _ _ _ _ (by omega), setCell_other _ _ _ _ (by omega)]
  obtain ⟨vm2, hrun, hbp, hst⟩ := runSeq_incs incs res.vm ch hi
  rw [List.cons_append, runSeq_cons_of_exec _ _ _ _ _ hres, runSeq_append, hresch, hrun]
  simp only [Option.bind, runSeq, exec_rtn]
  refine ⟨_, rfl, ?_, ?_⟩
  · show vm2.BP - 1 = vm.SP
    rw [hbp, hresbp]
    ring
  · intro i hi
    show vm2.stack i = vm.stack i
    rw [hst]
    exact hresst i hi

theorem cal_incs_rtn_keeps_stack_below_witness :
    ∃ vm3, runSeq (⟨5, 0, 0, 20⟩ :: [⟨6, 0, 0, 5⟩, ⟨6, 0, 0, -2⟩] ++ [⟨2, 0, 0, 0⟩])
        mainVM noChannels = some (vm3, noChannels) ∧
      vm3.SP = 4 ∧ ∀ i, i ≤ mainVM.SP → vm3.stack i = mainVM.stack i :=
  cal_incs_rtn_keeps_stack_below mainVM ⟨5, 0, 0, 20⟩ ⟨2, 0, 0, 0⟩
    [⟨6, 0, 0, 5⟩, ⟨6, 0, 0, -2⟩] noChannels rfl rfl (by decide)

/-! ## `STO` followed by `LOD` -/

/-- A store to a cell that is none of the static-link cells read by a walk does
not change the walk. -/
theorem walkChain_setCell_of_unread (stack : Int → Int) (a v : Int) (n : Nat) (b : Int)
    (h : ∀ k, k < n → a ≠ walkChain stack k b + 1) :
    walkChain (setCell stack a v) n b = walkChain stack n b := by
  induction n generalizing b with
  | zero => rfl
  | succ k ih =>
    have hb : a ≠ b + 1 := h 0 (Nat.succ_pos k)
    have hcell : setCell stack a v (b + 1) = stack (b + 1) :=
      setCell_other stack a (b + 1) v (Ne.symm hb)
    simp only [walkChain, hcell]
    exact ih (stack (b + 1)) fun j hj => h (j + 1) (Nat.succ_lt_succ hj)

/-- C17: let `a = getBasePointer(stack, BP, l) + m` be none of the static-link
cells `base + 1` read while walking `l` levels from `BP`.  Then `STO r l m`
followed by `LOD r2 l m` both return; afterwards `register[r2]` and
`register[r]` both hold the value `register[r]` had, the stack differs from the
old one in cell `a` only (which holds that value), and `SP`, `BP`, `PC` and
every register other than `r2` are unchanged. -/
theorem sto_lod_roundtrip (vm : VirtualMachine) (r r2 l m : Int) (ch : Channels)
    (h : ∀ k, k < l.toNat →
      getBasePointer vm.stack vm.BP l + m ≠ walkChain vm.stack k vm.BP + 1) :
    ∃ vm2, runSeq [⟨4, r, l, m⟩, ⟨3, r2, l, m⟩] vm ch = some (vm2, ch) ∧
      vm2.RF r2 = vm.RF r ∧ vm2.RF r = vm.RF r ∧
      vm2.stack (getBasePointer vm.stack vm.BP l + m) = vm.RF r ∧
      (∀ i, i ≠ getBasePointer vm.stack vm.BP l + m → vm2.stack i = vm.stack i) ∧
      vm2.SP = vm.SP ∧ vm2.BP = vm.BP ∧ vm2.PC = vm.PC ∧
      (∀ j, j ≠ r2 → vm2.RF j = vm.RF j) := by
  have hg : getBasePointer
      (setCell vm.stack (getBasePointer vm.stack vm.BP l + m) (vm.RF r)) vm.BP l
        = getBasePointer vm.stack vm.BP l :=
    walkChain_setCell_of_unread vm.stack _ (vm.RF r) l.toNat vm.BP h
  simp only [runSeq, exec_sto, exec_lod, hg, setCell_same]
  refine ⟨_, rfl, setCell_same _ _ _, ?_, setCell_same _ _ _,
    fun i hi => setCell_other _ _ _ _ hi, rfl, rfl, rfl, fun j hj => setCell_other _ _ _ _ hj⟩
  by_cases e : r = r2
  · subst e
    exact setCell_same _ _ _
  · exact setCell_other _ _ _ _ e

theorem sto_lod_roundtrip_witness :
    ∃ vm2, runSeq [⟨4, 3, 2, 5⟩, ⟨3, 7, 2, 5⟩] nestedVM noChannels = some (vm2, noChannels) ∧
      vm2.RF 7 = 77 ∧ vm2.stack 6 = 77 :=
  (sto_lod_roundtrip nestedVM 3 7 2 5 noChannels (by
      intro k hk
      have h2 : (2 : Int).toNat = 2 := rfl
      rw [h2] at hk
      interval_cases k <;> decide)).imp
    fun _ h => ⟨h.1, h.2.1.trans (by decide), h.2.2.2.1.trans (by decide)⟩

/-! ## Truncating division -/

theorem natAbs_tmod (a b : Int) : (Int.tmod a b).natAbs = a.natAbs % b.natAbs := by
  cases a <;> cases b <;> simp [Int.tmod, Int.natAbs_neg] <;> rfl

theorem tmod_nonpos {a : Int} (b : Int) (h : a ≤ 0) : Int.tmod a b ≤ 0 := by
  cases a with
  | ofNat n =>
    have hn : n = 0 := by
      have : (n : Int) ≤ 0 := h
      omega
    subst hn
    simp
  | negSucc k =>
    cases b with
    | ofNat n => exact Int.neg_nonpos_of_nonneg (Int.ofNat_zero_le _)
    | negSucc n => exact Int.neg_nonpos_of_nonneg (Int.ofNat_zero_le _)

theorem tmod_two_cases (v : Int) :
    (Int.tmod v 2 = 0 ∧ 2 ∣ v) ∨ (Int.tmod v 2 = 1 ∧ ¬ 2 ∣ v ∧ 0 < v) ∨
      (Int.tmod v 2 = -1 ∧ ¬ 2 ∣ v ∧ v < 0) := by
  have hdef := Int.tmod_def v 2
  have hdvd : 2 ∣ v ↔ Int.tmod v 2 = 0 := Int.dvd_iff_tmod_eq_zero
  have habs : (Int.tmod v 2).natAbs < 2 := by
    rw [natAbs_tmod]
    exact Nat.mod_lt _ (by decide)
  rcases Int.lt_trichotomy v 0 with hv | hv | hv
  · have := tmod_nonpos 2 (Int.le_of_lt hv)
    by_cases h0 : Int.tmod v 2 = 0
    · exact Or.inl ⟨h0, hdvd.2 h0⟩
    · exact Or.inr (Or.inr ⟨by omega, fun hd => h0 (hdvd.1 hd), hv⟩)
  · subst hv
    exact Or.inl ⟨by simp, by simp⟩
  · have := Int.tmod_nonneg 2 (Int.le_of_lt hv)
    by_cases h0 : Int.tmod v 2 = 0
    · exact Or.inl ⟨h0, hdvd.2 h0⟩
    · exact Or.inr (Or.inl ⟨by omega, fun hd => h0 (hdvd.1 hd), hv⟩)

theorem isInt32_tdiv {a b : Int} (ha : isInt32 a) (hmin : ¬ (a = INT_MIN ∧ b = -1))
    (hb : b ≠ 0) : isInt32 (Int.tdiv a b) := by
  unfold isInt32 INT_MIN INT_MAX at *
  have hq : (Int.tdiv a b).natAbs = a.natAbs / b.natAbs := Int.natAbs_tdiv a b
  have hle : a.natAbs / b.natAbs ≤ a.natAbs := Nat.div_le_self _ _
  by_cases htop : a.natAbs / b.natAbs = 2147483648
  · have ha' : a.natAbs = 2147483648 := by omega
    have hb1 : b.natAbs = 1 := by
      rcases Nat.div_eq_self.1 (htop.trans ha'.symm) with h0 | h1
      · omega
      · exact h1
    have hb' : b = 1 := by omega
    subst hb'
    rw [Int.tdiv_one]
    omega
  · omega

theorem isInt32_tmod {a b : Int} (hb : isInt32 b) (hb0 : b ≠ 0) : isInt32 (Int.tmod a b) := by
  unfold isInt32 INT_MIN INT_MAX at *
  have ht : (Int.tmod a b).natAbs < b.natAbs := by
    rw [natAbs_tmod]
    exact Nat.mod_lt _ (by omega)
  omega

/-- C19: with `a = register[l]`, `b = register[m]`, `b ≠ 0` and not
(`a = INT_MIN` and `b = -1`), `DIV` and `MOD` both return; the quotient `q`
written by `DIV` and the remainder `t` written by `MOD` satisfy
`a = q * b + t` and `|t| < |b|`; `q` is rounded toward zero (`|q|` is the
natural-number quotient of `|a|` by `|b|`); `t` is zero or has the sign of `a`;
and `q`, `t` are `int` values when `a`, `b` are. -/
theorem div_mod_truncate (vm : VirtualMachine) (rq rt l m : Int) (ch : Channels)
    (hb : vm.RF m ≠ 0) (hmin : ¬ (vm.RF l = INT_MIN ∧ vm.RF m = -1)) :
    ∃ resq rest,
      executeInstruction vm ⟨16, rq, l, m⟩ ch = some resq ∧
      executeInstruction vm ⟨18, rt, l, m⟩ ch = some rest ∧
      vm.RF l = resq.vm.RF rq * vm.RF m + rest.vm.RF rt ∧
      |rest.vm.RF rt| < |vm.RF m| ∧
      (resq.vm.RF rq).natAbs = (vm.RF l).natAbs / (vm.RF m).natAbs ∧
      (0 ≤ vm.RF l → 0 ≤ rest.vm.RF rt) ∧ (vm.RF l ≤ 0 → rest.vm.RF rt ≤ 0) ∧
      (isInt32 (vm.RF l) → isInt32 (vm.RF m) →
        isInt32 (resq.vm.RF rq) ∧ isInt32 (rest.vm.RF rt)) := by
  have hf : ¬ divFault (vm.RF l) (vm.RF m) := by
    unfold divFault
    tauto
  refine ⟨⟨{ vm with RF := setCell vm.RF rq (Int.tdiv (vm.RF l) (vm.RF m)) }, ch, 1⟩,
    ⟨{ vm with RF := setCell vm.RF rt (Int.tmod (vm.RF l) (vm.RF m)) }, ch, 1⟩,
    by simp [executeInstruction, hf], by simp [executeInstruction, hf], ?_⟩
  simp only [setCell_same]
  refine ⟨(Int.tdiv_add_tmod' _ _).symm, ?_, Int.natAbs_tdiv _ _, fun h => Int.tmod_nonneg _ h,
    fun h => tmod_nonpos _ h, fun ha hbr => ⟨isInt32_tdiv ha hmin hb, isInt32_tmod hbr hb⟩⟩
  rw [Int.abs_eq_natAbs, Int.abs_eq_natAbs, natAbs_tmod]
  have : (vm.RF l).natAbs % (vm.RF m).natAbs < (vm.RF m).natAbs :=
    Nat.mod_lt _ (by omega)
  exact_mod_cast this

theorem div_mod_truncate_witness :
    regVM.RF 1 ≠ 0 ∧
    ∃ resq rest,
      executeInstruction regVM ⟨16, 2, 0, 1⟩ noChannels = some resq ∧
      executeInstruction regVM ⟨18, 3, 0, 1⟩ noChannels = some rest ∧
      resq.vm.RF 2 = 5 ∧ rest.vm.RF 3 = 1 ∧
      regVM.RF 0 = resq.vm.RF 2 * regVM.RF 1 + rest.vm.RF 3 := by
  obtain ⟨resq, rest, hq, ht, heq, -⟩ :=
    div_mod_truncate regVM 2 3 0 1 noChannels (by decide) (by decide)
  refine ⟨by decide, resq, rest, hq, ht, ?_, ?_, heq⟩
  · simp [executeInstruction, regVM, divFault, INT_MIN] at hq
    subst hq
    decide
  · simp [executeInstruction, regVM, divFault, INT_MIN] at ht
    subst ht
    decide

/-! ## `ODD` -/

/-- C20: `ODD` returns and leaves in `register[r]` the truncated remainder of
its old value `v` by 2, one of `-1`, `0`, `1`: `0` exactly when `v` is even,
`1` exactly when `v` is odd and positive, `-1` exactly when `v` is odd and
negative.  A `JPC` on that register executed next sets `PC` to its `m` exactly
when `v` is even, and otherwise changes nothing. -/
theorem odd_then_jpc (vm : VirtualMachine) (r l m : Int) (ch : Channels) :
    ∃ res, executeInstruction vm ⟨17, r, l, m⟩ ch = some res ∧
      res.vm.RF r = Int.tmod (vm.RF r) 2 ∧
      (res.vm.RF r = -1 ∨ res.vm.RF r = 0 ∨ res.vm.RF r = 1) ∧
      (res.vm.RF r = 0 ↔ 2 ∣ vm.RF r) ∧
      (res.vm.RF r = 1 ↔ ¬ 2 ∣ vm.RF r ∧ 0 < vm.RF r) ∧
      (res.vm.RF r = -1 ↔ ¬ 2 ∣ vm.RF r ∧ vm.RF r < 0) ∧
      ∀ l2 m2 : Int, executeInstruction res.vm ⟨8, r, l2, m2⟩ res.ch =
        some ⟨if 2 ∣ vm.RF r then { res.vm with PC := m2 } else res.vm, res.ch, 1⟩ := by
  refine ⟨⟨{ vm with RF := setCell vm.RF r (Int.tmod (vm.RF r) 2) }, ch, 1⟩,
    by simp [executeInstruction], ?_⟩
  simp only [setCell_same]
  have hdvd : 2 ∣ vm.RF r ↔ Int.tmod (vm.RF r) 2 = 0 := Int.dvd_iff_tmod_eq_zero
  refine ⟨trivial, ?_, hdvd.symm, ?_, ?_, ?_⟩
  · rcases tmod_two_cases (vm.RF r) with h | h | h <;> simp [h.1]
  · rcases tmod_two_cases (vm.RF r) with h | h | h
    · simp [h.1, h.2]
    · simp [h.1, h.2.1, h.2.2]
    · simp [h.1, h.2.1]; omega
  · rcases tmod_two_cases (vm.RF r) with h | h | h
    · simp [h.1, h.2]
    · simp [h.1, h.2.1]; omega
    · simp [h.1, h.2.1, h.2.2]
  · intro l2 m2
    by_cases h0 : Int.tmod (vm.RF r) 2 = 0
    · simp [executeInstruction, h0, hdvd.2 h0]
    · have hnd : ¬ 2 ∣ vm.RF r := fun hd => h0 (hdvd.1 hd)
      simp [executeInstruction, h0, hnd]

/-! ## The invariant `1 ≤ BP ≤ SP + 1` -/

/-- C13, as stated, fails: from the initial state of the zero machine, `inc 0 0 -1`
gives `BP = 1`, `SP = -1`, so `BP > SP + 1`; and `rtn 0 0 0` gives `BP = 0`, so
`BP < 1`. -/
theorem frame_invariant_broken_by_inc_and_rtn :
    (∃ vm ch, runSeq [⟨6, 0, 0, -1⟩] (initVM zeroVM) noChannels = some (vm, ch) ∧
      vm.BP = 1 ∧ vm.SP = -1 ∧ ¬ frameInv vm) ∧
    (∃ vm ch, runSeq [⟨2, 0, 0, 0⟩] (initVM zeroVM) noChannels = some (vm, ch) ∧
      vm.BP = 0 ∧ ¬ frameInv vm) := by
  constructor
  · simp only [runSeq, exec_inc]
    exact ⟨_, _, rfl, rfl, rfl, by decide⟩
  · simp only [runSeq, exec_rtn]
    exact ⟨_, _, rfl, rfl, by decide⟩

theorem frameInv_step (vm : VirtualMachine) (ins : Instruction) (ch : Channels)
    (res : ExecResult) (hinv : frameInv vm)
    (hinc : ins.op = 6 → vm.BP ≤ vm.SP + ins.m + 1)
    (hrtn : ins.op = 2 → 1 ≤ vm.stack (vm.BP + 2) ∧ vm.stack (vm.BP + 2) ≤ vm.BP)
    (h : executeInstruction vm ins ch = some res) : frameInv res.vm := by
  unfold frameInv at *
  by_cases hr : 1 ≤ ins.op ∧ ins.op ≤ 24
  · rcases opcode_cases ins hr.1 hr.2 with hk | hk | hk | hk | hk | hk | hk | hk | hk | hk | hk | hk |
      hk | hk | hk | hk | hk | hk | hk | hk | hk | hk | hk | hk
    all_goals
      simp [executeInstruction, hk] at h
      first
      | (subst h; exact hinv)
      | (rw [← h.2]; exact hinv)
      | (split at h <;> simp at h <;> subst h <;> exact hinv)
      | skip
    · subst h
      have e : vm.BP - 1 + 3 = vm.BP + 2 := by ring
      have := hrtn hk
      show 1 ≤ vm.stack (vm.BP - 1 + 3) ∧ vm.stack (vm.BP - 1 + 3) ≤ vm.BP - 1 + 1
      rw [e]
      omega
    · subst h
      show 1 ≤ vm.SP + 1 ∧ vm.SP + 1 ≤ vm.SP + 1
      omega
    · subst h
      have := hinc hk
      show 1 ≤ vm.BP ∧ vm.BP ≤ vm.SP + ins.m + 1
      omega
  · rw [exec_default vm ins ch (by omega)] at h
    cases h
    exact hinv

/-- C13, amended: every machine state reached from the initial state by a
sequence of instructions through `executeInstruction` in which each `INC`
leaves `SP ≥ BP - 1` and each `RTN` finds a dynamic link `stack[BP + 2]` in
`1 .. BP` satisfies `1 ≤ BP ≤ SP + 1`. -/
theorem frame_invariant_of_safe_sequence (prog : List Instruction) (vm0 : VirtualMachine)
    (ch : Channels) (hsafe : frameSafe prog (initVM vm0) ch)
    (vm : VirtualMachine) (ch1 : Channels)
    (hrun : runSeq prog (initVM vm0) ch = some (vm, ch1)) : frameInv vm := by
  have hgen : ∀ (p : List Instruction) (v : VirtualMachine) (c : Channels),
      frameInv v → frameSafe p v c → runSeq p v c = some (vm, ch1) → frameInv vm := by
    intro p
    induction p with
    | nil =>
      intro v c hv _ hr
      simp only [runSeq, Option.some.injEq, Prod.mk.injEq] at hr
      rw [← hr.1]
      exact hv
    | cons i rest ih =>
      intro v c hv hs hr
      unfold frameSafe at hs
      unfold runSeq at hr
      cases hstep : executeInstruction v i c with
      | none => simp [hstep] at hr
      | some res =>
        simp only [hstep] at hs hr
        exact ih res.vm res.ch (frameInv_step v i c res hv hs.1 hs.2.1 hstep) hs.2.2 hr
  exact hgen prog (initVM vm0) ch (by unfold frameInv initVM; simp) hsafe hrun

theorem frame_invariant_of_safe_sequence_witness :
    frameSafe (⟨5, 0, 0, 20⟩ :: bodyProg ++ [⟨2, 0, 0, 0⟩]) (initVM zeroVM) noChannels ∧
    ∃ vm ch, runSeq (⟨5, 0, 0, 20⟩ :: bodyProg ++ [⟨2, 0, 0, 0⟩]) (initVM zeroVM) noChannels
        = some (vm, ch) ∧ frameInv vm := by
  have hs : frameSafe (⟨5, 0, 0, 20⟩ :: bodyProg ++ [⟨2, 0, 0, 0⟩]) (initVM zeroVM)
      noChannels := by
    simp [frameSafe, bodyProg, executeInstruction, initVM, zeroVM, getBasePointer, walkChain,
      setCell]
  have hr : ∃ vm ch, runSeq (⟨5, 0, 0, 20⟩ :: bodyProg ++ [⟨2, 0, 0, 0⟩]) (initVM zeroVM)
      noChannels = some (vm, ch) := by
    simp [runSeq, bodyProg, executeInstruction]
  obtain ⟨vm, ch, hrun⟩ := hr
  exact ⟨hs, vm, ch, hrun,
    frame_invariant_of_safe_sequence _ zeroVM noChannels hs vm ch hrun⟩

/-! ## The dynamic chain and the recursion of `dumpStack` -/

theorem dumpStack_self_link (stack : Int → Int) (b : Int) (h0 : b ≠ 0) (h1 : b ≠ 1)
    (hlink : stack (b + 2) = b) (depth : Nat) (sp : Int) :
    dumpStack stack depth sp b = none := by
  induction depth generalizing sp with
  | zero => rfl
  | succ d ih => simp [dumpStack, h0, h1, hlink, ih]

/-- C14, as stated, fails: `inc 0 0 1; cal 0 0 0; cal 0 0 0`, run from the initial
state of the zero machine, ends with `BP = 2` and `stack[BP + 2] = 2`: the
second `CAL` is executed while the first callee's frame is still empty and
overwrites that frame's dynamic link with its own base.  The link is not
smaller than the base, and `dumpStack(stack, SP, BP)` has no result at any
recursion depth. -/
theorem dynamic_link_cycle_after_two_calls :
    ∃ vm ch, runSeq callTwiceProg (initVM zeroVM) noChannels = some (vm, ch) ∧
      vm.BP = 2 ∧ vm.stack (vm.BP + 2) = 2 ∧ ¬ vm.stack (vm.BP + 2) < vm.BP ∧
      ∀ depth, dumpStack vm.stack depth vm.SP vm.BP = none := by
  simp only [callTwiceProg, runSeq, exec_inc, exec_cal]
  refine ⟨_, _, rfl, rfl, ?_, ?_, ?_⟩
  · simp [initVM, zeroVM, setCell]
  · simp [initVM, zeroVM, setCell]
  · intro depth
    exact dumpStack_self_link _ _ (by decide) (by decide)
      (by simp [initVM, zeroVM, setCell]) depth _

theorem dumpStack_isSome_of_descending (stack : Int → Int) (bp : Int)
    (hint : ∀ i, INT_MIN ≤ stack i)
    (hdesc : ∀ b, OnChain stack bp b → b ≠ 0 → b ≠ 1 → stack (b + 2) < b) :
    ∀ (depth : Nat) (b sp : Int), OnChain stack bp b → b - INT_MIN + 1 < depth →
      (dumpStack stack depth sp b).isSome = true := by
  intro depth
  induction depth with
  | zero =>
    intro b sp hb hlt
    exfalso
    have h1 := hint (b + 2)
    unfold INT_MIN at hlt h1
    have h2 := hdesc b hb (by omega) (by omega)
    omega
  | succ d ih =>
    intro b sp hb hlt
    unfold dumpStack
    by_cases h0 : b = 0
    · simp [h0]
    · by_cases h1 : b = 1
      · simp [h1]
        split <;> rfl
      · have hlink := hdesc b hb h0 h1
        have hrec := ih (stack (b + 2)) (b - 1) (OnChain.link hb h0 h1) (by omega)
        obtain ⟨items, hitems⟩ := Option.isSome_iff_exists.1 hrec
        simp only [h0, h1, if_false, hitems]
        split <;> rfl

/-- A sufficient condition on a single state: when the stack cells hold `int`
values and each base `b` other than 0 and 1 on the dynamic chain starting at
`BP` has a dynamic link `stack[b + 2]` strictly smaller than `b`, the recursion
of `dumpStack(stack, SP, BP)` ends within `BP - INT_MIN + 2` levels.  A `CAL`
stores the caller's `BP` as the dynamic link of the frame it creates, and that
link is strictly smaller than the new base exactly when `BP ≤ SP`. -/
theorem dumpStack_isSome_of_descending_links (stack : Int → Int) (sp bp : Int)
    (hint : ∀ i, INT_MIN ≤ stack i)
    (hdesc : ∀ b, OnChain stack bp b → b ≠ 0 → b ≠ 1 → stack (b + 2) < b) :
    (∀ depth : Nat, (bp - INT_MIN + 2).toNat ≤ depth →
      (dumpStack stack depth sp bp).isSome = true) ∧
    (∀ (vm : VirtualMachine) (r l m : Int) (ch : Channels),
      ∃ res, executeInstruction vm ⟨5, r, l, m⟩ ch = some res ∧
        res.vm.stack (res.vm.BP + 2) = vm.BP ∧
        (res.vm.stack (res.vm.BP + 2) < res.vm.BP ↔ vm.BP ≤ vm.SP)) := by
  constructor
  · intro depth hd
    exact dumpStack_isSome_of_descending stack bp hint hdesc depth bp sp OnChain.start
      (by omega)
  · intro vm r l m ch
    have hcell : setCell (setCell (setCell (setCell vm.stack (vm.SP + 1) 0) (vm.SP + 2)
        (getBasePointer (setCell vm.stack (vm.SP + 1) 0) vm.BP l)) (vm.SP + 3) vm.BP)
        (vm.SP + 4) vm.PC (vm.SP + 1 + 2) = vm.BP := by
      have e : vm.SP + 1 + 2 = vm.SP + 3 := by ring
      rw [e, setCell_other _ _ _ _ (by omega), setCell_same]
    refine ⟨_, exec_cal vm r l m ch, hcell, ?_⟩
    show setCell _ _ _ (vm.SP + 1 + 2) < vm.SP + 1 ↔ vm.BP ≤ vm.SP
    rw [hcell]
    omega

/-! ## `readInstructions` -/

theorem groupAt_zero (a b c d : Int) (rest : List Int) :
    groupAt (a :: b :: c :: d :: rest) 0 = ⟨a, b, c, d⟩ := rfl

theorem groupAt_succ (a b c d : Int) (rest : List Int) (k : Nat) :
    groupAt (a :: b :: c :: d :: rest) (k + 1) = groupAt rest k := by
  have e : 4 * (k + 1) = 4 * k + 4 := by ring
  simp [groupAt, e]

theorem readInstructionsFrom_short (pre : List Int) (tail : List Token)
    (htail : ∀ v, tail.head? ≠ some (Token.int v)) (hlen : pre.length < 4)
    (ins : Int → Instruction) (i : Nat) :
    (readInstructionsFrom (pre.map Token.int ++ tail) ins i).1 = i ∧
    ∀ j : Int, j < i → (readInstructionsFrom (pre.map Token.int ++ tail) ins i).2 j = ins j := by
  have hne : ∀ j : Int, j < i → j ≠ (i : Int) := fun j hj => by omega
  match pre, hlen with
  | [], _ =>
    match tail, htail with
    | [], _ => exact ⟨rfl, fun _ _ => rfl⟩
    | Token.junk :: _, _ => exact ⟨rfl, fun _ _ => rfl⟩
    | Token.int v :: _, h => exact absurd rfl (h v)
  | [a], _ =>
    match tail, htail with
    | [], _ => exact ⟨rfl, fun j hj => setCell_other _ _ _ _ (hne j hj)⟩
    | Token.junk :: _, _ => exact ⟨rfl, fun j hj => setCell_other _ _ _ _ (hne j hj)⟩
    | Token.int v :: _, h => exact absurd rfl (h v)
  | [a, b], _ =>
    match tail, htail with
    | [], _ => exact ⟨rfl, fun j hj => setCell_other _ _ _ _ (hne j hj)⟩
    | Token.junk :: _, _ => exact ⟨rfl, fun j hj => setCell_other _ _ _ _ (hne j hj)⟩
    | Token.int v :: _, h => exact absurd rfl (h v)
  | [a, b, c], _ =>
    match tail, htail with
    | [], _ => exact ⟨rfl, fun j hj => setCell_other _ _ _ _ (hne j hj)⟩
    | Token.junk :: _, _ => exact ⟨rfl, fun j hj => setCell_other _ _ _ _ (hne j hj)⟩
    | Token.int v :: _, h => exact absurd rfl (h v)

theorem readInstructionsFrom_groups (tail : List Token)
    (htail : ∀ v, tail.head? ≠ some (Token.int v)) :
    ∀ (vals : List Int) (ins : Int → Instruction) (i : Nat),
      (readInstructionsFrom (vals.map Token.int ++ tail) ins i).1 = i + vals.length / 4 ∧
      (∀ k, k < vals.length / 4 →
        (readInstructionsFrom (vals.map Token.int ++ tail) ins i).2 ((i + k : Nat) : Int)
          = groupAt vals k) ∧
      (∀ j : Int, j < i → (readInstructionsFrom (vals.map Token.int ++ tail) ins i).2 j = ins j)
  | a :: b :: c :: d :: rest, ins, i => by
    have ih := readInstructionsFrom_groups tail htail rest (setCell ins i ⟨a, b, c, d⟩) (i + 1)
    have hstep : readInstructionsFrom ((a :: b :: c :: d :: rest).map Token.int ++ tail) ins i
        = readInstructionsFrom (rest.map Token.int ++ tail) (setCell ins i ⟨a, b, c, d⟩)
            (i + 1) := by
      simp [readInstructionsFrom]
    have hlen : (a :: b :: c :: d :: rest).length / 4 = rest.length / 4 + 1 := by
      simp only [List.length_cons]
      omega
    rw [hstep, hlen]
    refine ⟨?_, ?_, ?_⟩
    · rw [ih.1]
      omega
    · intro k hk
      cases k with
      | zero =>
        have h0 := ih.2.2 (i : Int) (by push_cast; omega)
        rw [groupAt_zero]
        simpa using h0
      | succ k1 =>
        have hk1 : k1 < rest.length / 4 := by omega
        have h1 := ih.2.1 k1 hk1
        have e : ((i + (k1 + 1) : Nat) : Int) = ((i + 1 + k1 : Nat) : Int) := by
          push_cast
          omega
        rw [groupAt_succ, ← h1, e]
    · intro j hj
      rw [ih.2.2 j (by push_cast; omega)]
      exact setCell_other _ _ _ _ (by omega)
  | [a, b, c], ins, i => by
    have h := readInstructionsFrom_short [a, b, c] tail htail (by simp) ins i
    exact ⟨by simpa using h.1, fun k hk => absurd hk (by simp), h.2⟩
  | [a, b], ins, i => by
    have h := readInstructionsFrom_short [a, b] tail htail (by simp) ins i
    exact ⟨by simpa using h.1, fun k hk => absurd hk (by simp), h.2⟩
  | [a], ins, i => by
    have h := readInstructionsFrom_short [a] tail htail (by simp) ins i
    exact ⟨by simpa using h.1, fun k hk => absurd hk (by simp), h.2⟩
  | [], ins, i => by
    have h := readInstructionsFrom_short [] tail htail (by simp) ins i
    exact ⟨by simpa using h.1, fun k hk => absurd hk (by simp), h.2⟩

/-- C16: on a stream that begins with `n` integer tokens and then ends or goes on
with a token that is not an integer, `readInstructions` returns `n / 4`; for
each `k < n / 4` the record `ins[k]` holds the `k`-th group of four integers,
in order; a trailing group of one to three integers does not count, and the
function returns in every case. -/
theorem readInstructions_counts_groups (vals : List Int) (tail : List Token)
    (ins : Int → Instruction) (htail : ∀ v, tail.head? ≠ some (Token.int v)) :
    (readInstructions (vals.map Token.int ++ tail) ins).1 = vals.length / 4 ∧
    (∀ k : Nat, k < vals.length / 4 →
      (readInstructions (vals.map Token.int ++ tail) ins).2 (k : Int) = groupAt vals k) := by
  have h := readInstructionsFrom_groups tail htail vals ins 0
  refine ⟨by simpa [readInstructions] using h.1, fun k hk => ?_⟩
  have hk2 := h.2.1 k hk
  simpa [readInstructions] using hk2

theorem readInstructions_counts_groups_witness :
    (readInstructions (([1, 0, 0, 5, 9, 0, 0, 0, 11, 0, 0] : List Int).map Token.int ++ []) calCode).1
        = 2 ∧
      (readInstructions (([1, 0, 0, 5, 9, 0, 0, 0, 11, 0, 0] : List Int).map Token.int ++ [])
        calCode).2 ((1 : Nat) : Int) = ⟨9, 0, 0, 0⟩ :=
  have h := readInstructions_counts_groups [1, 0, 0, 5, 9, 0, 0, 0, 11, 0, 0] [] calCode
    (fun _ hv => by cases hv)
  ⟨h.1, h.2 1 (by decide)⟩

/-! ## The rendering of `dumpStack` -/

theorem slotsFrom_eq_map (stack : Int → Int) (lo : Int) (n : Nat) :
    slotsFrom stack lo n
      = (List.range n).map fun k : Nat => StackItem.num (stack (lo + (k : Int))) := by
  induction n generalizing lo with
  | zero => rfl
  | succ k ih =>
    rw [slotsFrom, ih, List.range_succ_eq_map]
    have e : ∀ x : Nat, lo + 1 + (x : Int) = lo + ((x + 1 : Nat) : Int) := fun x => by
      push_cast
      ring
    simp [Function.comp_def, e]

theorem dumpRecord_eq_slots (stack : Int → Int) (sp bp : Int) :
    dumpRecord stack sp bp = slots stack bp sp := by
  have hcast : ∀ l : List Nat,
      (do let a ← l; pure (a : Int) : List Int) = l.map fun a : Nat => (a : Int) := by
    intro l
    induction l with
    | nil => rfl
    | cons x xs ih => simpa using ih
  rw [slots, slotsFrom_eq_map]
  unfold dumpRecord
  rw [hcast, List.map_map]
  rfl

theorem frameGroups_snoc (stack : Int → Int) (sp : Int) (xs : List Int) (c b : Int) :
    frameGroups stack sp (xs ++ [c, b]) =
      frameGroups stack (b - 1) (xs ++ [c]) ++ StackItem.bar :: slots stack b sp := by
  induction xs with
  | nil => simp [frameGroups]
  | cons x rest ih =>
    cases rest with
    | nil => simp [frameGroups]
    | cons y ys =>
      simp only [List.cons_append, frameGroups, List.append_eq] at ih ⊢
      rw [ih]
      simp

theorem isDynChain_snoc (stack : Int → Int) (xs : List Int) (c b : Int) :
    isDynChain stack (xs ++ [c, b]) ↔
      isDynChain stack (xs ++ [c]) ∧ c < b ∧ stack (b + 2) = c := by
  induction xs with
  | nil => simp [isDynChain]
  | cons x rest ih =>
    cases rest with
    | nil => simp [isDynChain]; tauto
    | cons y ys =>
      simp only [List.cons_append, isDynChain, List.append_eq] at ih ⊢
      rw [ih]
      tauto

theorem isDynChain_last_pos (stack : Int → Int) (xs : List Int) (c : Int)
    (hchain : isDynChain stack (xs ++ [c])) (hhead : (xs ++ [c]).head? = some 1) : 1 ≤ c := by
  induction xs using List.reverseRecOn generalizing c with
  | nil =>
    simp at hhead
    omega
  | append_singleton ys y ih =>
    have hsplit : ys ++ [y] ++ [c] = ys ++ [y, c] := by simp
    rw [hsplit] at hchain hhead
    obtain ⟨h1, h2, -⟩ := (isDynChain_snoc stack ys y c).1 hchain
    have hy : 1 ≤ y := ih y h1 (by
      cases ys with
      | nil => simpa using hhead
      | cons z zs => simpa using hhead)
    omega

theorem dumpStack_chain (stack : Int → Int) (xs : List Int) :
    ∀ (b sp : Int) (depth : Nat), isDynChain stack (xs ++ [b]) →
      (xs ++ [b]).head? = some 1 → b ≤ sp → xs.length + 1 ≤ depth →
      dumpStack stack depth sp b
        = some (StackItem.num 0 :: frameGroups stack sp (xs ++ [b])) := by
  induction xs using List.reverseRecOn with
  | nil =>
    intro b sp depth _ hhead hsp hd
    have hb : b = 1 := by simpa using hhead
    subst hb
    obtain ⟨d, rfl⟩ : ∃ d, depth = d + 1 := ⟨depth - 1, by simp at hd; omega⟩
    simp [dumpStack, hsp, frameGroups, dumpRecord_eq_slots]
  | append_singleton ys c ih =>
    intro b sp depth hchain hhead hsp hd
    have hsplit : ys ++ [c] ++ [b] = ys ++ [c, b] := by simp
    rw [hsplit] at hchain hhead ⊢
    obtain ⟨hc, hlt, hlink⟩ := (isDynChain_snoc stack ys c b).1 hchain
    have hhead2 : (ys ++ [c]).head? = some 1 := by
      cases ys with
      | nil => simpa using hhead
      | cons z zs => simpa using hhead
    have hcpos : 1 ≤ c := isDynChain_last_pos stack ys c hc hhead2
    obtain ⟨d, rfl⟩ : ∃ d, depth = d + 1 := ⟨depth - 1, by simp at hd; omega⟩
    have hrec := ih c (b - 1) d hc hhead2 (by omega) (by simp at hd; omega)
    have h0 : b ≠ 0 := by omega
    have h1 : b ≠ 1 := by omega
    simp [dumpStack, h0, h1, hlink, hrec, hsp, frameGroups_snoc, dumpRecord_eq_slots]

/-- C11: let `bs = [b_1, ..., b_k]` list, oldest first, the frame bases of the
dynamic chain from `BP`: `b_1 = 1`, `b_k = BP`, each `b_(i+1)` larger than `b_i`
with `stack[b_(i+1) + 2] = b_i`, and `BP ≤ SP`.  Then `dumpStack(stack, SP, BP)`
returns (a recursion depth of `k` suffices) and prints the sentinel `0`, then
one bar-delimited group per frame, oldest first: `stack[b_i .. b_(i+1) - 1]`
for `i < k`, and `stack[BP .. SP]` last. -/
theorem dumpStack_renders_chain (stack : Int → Int) (sp bp : Int) (bs : List Int)
    (hhead : bs.head? = some 1) (hlast : bs.getLast? = some bp)
    (hchain : isDynChain stack bs) (hsp : bp ≤ sp) (depth : Nat) (hd : bs.length ≤ depth) :
    dumpStack stack depth sp bp = some (StackItem.num 0 :: frameGroups stack sp bs) := by
  obtain ⟨ys, rfl⟩ := List.getLast?_eq_some_iff.1 hlast
  exact dumpStack_chain stack ys bp sp depth hchain hhead hsp (by simpa using hd)

theorem dumpStack_renders_chain_witness :
    isDynChain linkedStack [1, 10, 20] ∧
    dumpStack linkedStack 3 25 20
      = some (StackItem.num 0 :: frameGroups linkedStack 25 [1, 10, 20]) ∧
    groupCount (StackItem.num 0 :: frameGroups linkedStack 25 [1, 10, 20]) = 3 :=
  ⟨by simp [isDynChain, linkedStack],
    dumpStack_renders_chain linkedStack 25 20 [1, 10, 20] rfl rfl
      (by simp [isDynChain, linkedStack]) (by decide) 3 (by decide),
    by decide⟩

/-! ## The trace of a program with one call -/

theorem count_bar_slots (stack : Int → Int) (lo hi : Int) :
    List.count StackItem.bar (slots stack lo hi) = 0 := by
  have h : ∀ (n : Nat) (a : Int), List.count StackItem.bar (slotsFrom stack a n) = 0 := by
    intro n
    induction n with
    | zero => intro a; rfl
    | succ k ih => intro a; simp [slotsFrom, ih]
  exact h _ _

theorem dumpStack_outer (stack : Int → Int) (d : Nat) (sp : Int) :
    dumpStack stack (d + 1) sp 1
      = some (StackItem.num 0 :: if 1 ≤ sp then StackItem.bar :: slots stack 1 sp else []) := by
  by_cases h : 1 ≤ sp <;> simp [dumpStack, h, dumpRecord_eq_slots]

theorem dumpStack_inner (stack : Int → Int) (d : Nat) (sp b : Int) (hb : 2 ≤ b)
    (hlink : stack (b + 2) = 1) :
    dumpStack stack (d + 2) sp b
      = some (StackItem.num 0 :: StackItem.bar :: slots stack 1 (b - 1) ++
          if b ≤ sp then StackItem.bar :: slots stack b sp else []) := by
  have h0 : b ≠ 0 := by omega
  have h1 : b ≠ 1 := by omega
  have h2 : (1 : Int) ≤ b - 1 := by omega
  by_cases h : b ≤ sp <;> simp [dumpStack, h0, h1, h2, hlink, h, dumpRecord_eq_slots]

theorem loopBody_trace (code : Int → Instruction) (depth : Nat) (d : Driver)
    (res : ExecResult) (frames : List StackItem)
    (hres : executeInstruction { d.vm with PC := d.vm.PC + 1 } (code d.vm.PC) d.ch = some res)
    (hdump : dumpStack res.vm.stack depth res.vm.SP res.vm.BP = some frames) :
    ∃ d1, loopBody code depth d = some d1 ∧ d1.vm = res.vm ∧ lastFrames d1 = some frames := by
  unfold loopBody
  simp only [hres, hdump]
  exact ⟨_, rfl, rfl, by simp [lastFrames]⟩

theorem trace_inside_callee (code : Int → Instruction) (depth : Nat) (d : Driver)
    (res : ExecResult)
    (hres : executeInstruction { d.vm with PC := d.vm.PC + 1 } (code d.vm.PC) d.ch = some res)
    (hb : 2 ≤ res.vm.BP) (hlink : res.vm.stack (res.vm.BP + 2) = 1) :
    ∃ d1 frames, loopBody code (depth + 2) d = some d1 ∧ d1.vm = res.vm ∧
      lastFrames d1 = some frames ∧
      frames = (StackItem.num 0 :: StackItem.bar :: slots res.vm.stack 1 (res.vm.BP - 1) ++
        if res.vm.BP ≤ res.vm.SP then StackItem.bar :: slots res.vm.stack res.vm.BP res.vm.SP
        else []) ∧
      groupCount frames = if res.vm.BP ≤ res.vm.SP then 2 else 1 := by
  obtain ⟨d1, h1, h2, h3⟩ := loopBody_trace code (depth + 2) d res _ hres
    (dumpStack_inner res.vm.stack depth res.vm.SP res.vm.BP hb hlink)
  refine ⟨d1, _, h1, h2, h3, rfl, ?_⟩
  by_cases h : res.vm.BP ≤ res.vm.SP <;>
    simp [groupCount, h, List.count_cons, List.count_append, count_bar_slots]

/-- C12, as stated, fails: `callLitCode` makes one call from the outermost frame
(`0: inc 0 0 4; 1: cal 0 0 3; 2: halt; 3: lit 0 0 5; 4: rtn`).  Its run ends
after five traced steps; the step of the `lit` at index 3 lies after the `CAL`
and before the `RTN`, and its rendering has one bar-delimited group, not two:
the callee has allocated nothing, so `BP > SP` and its frame is not printed. -/
theorem callee_without_cells_shows_one_group :
    ∃ d, whileLoop callLitCode 2 6 (initDriver zeroVM noChannels fun _ => 0) = some d ∧
      d.outp.map (fun t => (t.currInst, t.name, groupCount t.frames))
        = [(0, some "inc", 1), (1, some "cal", 1), (3, some "lit", 1), (4, some "rtn", 1),
           (2, some "sio", 1)] := by
  simp [whileLoop, loopBody, initDriver, initVM, zeroVM, noChannels, callLitCode,
    executeInstruction, dumpStack, dumpRecord_eq_slots, getBasePointer, walkChain, setCell,
    opcodeName, opcodes, groupCount, count_bar_slots, List.count_cons]

theorem exec_cal_of_op (vm : VirtualMachine) (ins : Instruction) (ch : Channels)
    (h : ins.op = 5) :
    ∃ res, executeInstruction vm ins ch = some res ∧ res.vm.BP = vm.SP + 1 ∧
      res.vm.SP = vm.SP ∧ res.vm.stack (vm.SP + 3) = vm.BP ∧
      ∀ i, i ≤ vm.SP → res.vm.stack i = vm.stack i := by
  obtain ⟨op, r, l, m⟩ := ins
  simp only at h
  subst h
  refine ⟨_, exec_cal vm r l m ch, rfl, rfl, ?_, fun i hi => ?_⟩
  · show setCell _ _ _ (vm.SP + 3) = vm.BP
    rw [setCell_other _ _ _ _ (by omega), setCell_same]
  · show setCell _ _ _ i = vm.stack i
    rw [setCell_other _ _ _ _ (by omega), setCell_other _ _ _ _ (by omega),
      setCell_other _ _ _ _ (by omega), setCell_other _ _ _ _ (by omega)]

theorem exec_rtn_of_op (vm : VirtualMachine) (ins : Instruction) (ch : Channels)
    (h : ins.op = 2) :
    ∃ res, executeInstruction vm ins ch = some res ∧ res.vm.BP = vm.stack (vm.BP + 2) ∧
      res.vm.SP = vm.BP - 1 ∧ res.vm.stack = vm.stack := by
  obtain ⟨op, r, l, m⟩ := ins
  simp only at h
  subst h
  refine ⟨_, exec_rtn vm r l m ch, ?_, rfl, rfl⟩
  show vm.stack (vm.BP - 1 + 3) = vm.stack (vm.BP + 2)
  have e : vm.BP - 1 + 3 = vm.BP + 2 := by ring
  rw [e]

theorem trace_at_cal (code : Int → Instruction) (depth : Nat) (d : Driver)
    (hop : (code d.vm.PC).op = 5) (hbp : d.vm.BP = 1) (hsp : 1 ≤ d.vm.SP) :
    ∃ d1, loopBody code (depth + 2) d = some d1 ∧ d1.halt = 1 ∧
      d1.vm.BP = d.vm.SP + 1 ∧ d1.vm.SP = d.vm.SP ∧ d1.vm.stack (d.vm.SP + 3) = 1 ∧
      lastFrames d1 = some (calleeFrames d.vm.SP d1.vm) := by
  obtain ⟨res, hres, hb, hs, hl, -⟩ :=
    exec_cal_of_op { d.vm with PC := d.vm.PC + 1 } (code d.vm.PC) d.ch hop
  have hret : res.ret = 1 :=
    exec_ret_one _ _ _ res (by omega) (by omega) (by omega) hres
  have hb2 : 2 ≤ res.vm.BP := by
    rw [hb]
    show 2 ≤ d.vm.SP + 1
    omega
  have hl1 : res.vm.stack (d.vm.SP + 3) = 1 := hl.trans hbp
  have hlink : res.vm.stack (res.vm.BP + 2) = 1 := by
    rw [hb]
    have e : d.vm.SP + 1 + 2 = d.vm.SP + 3 := by ring
    show res.vm.stack (d.vm.SP + 1 + 2) = 1
    rw [e]
    exact hl1
  have hdump := dumpStack_inner res.vm.stack depth res.vm.SP res.vm.BP hb2 hlink
  have hidx : res.vm.BP - 1 = d.vm.SP := by
    rw [hb]
    show d.vm.SP + 1 - 1 = d.vm.SP
    ring
  rw [hidx] at hdump
  unfold loopBody
  simp only [hres, hdump]
  exact ⟨_, rfl, hret, hb, hs, hl1, by simp [lastFrames, calleeFrames]⟩

theorem trace_at_rtn (code : Int → Instruction) (depth : Nat) (d : Driver)
    (hop : (code d.vm.PC).op = 2) (hbp : 2 ≤ d.vm.BP) (hlink : d.vm.stack (d.vm.BP + 2) = 1) :
    ∃ d1, loopBody code (depth + 2) d = some d1 ∧
      d1.vm.BP = 1 ∧ d1.vm.SP = d.vm.BP - 1 ∧ d1.vm.stack = d.vm.stack ∧
      lastFrames d1
        = some (StackItem.num 0 :: StackItem.bar :: slots d.vm.stack 1 (d.vm.BP - 1)) := by
  obtain ⟨res, hres, hb, hs, hst⟩ :=
    exec_rtn_of_op { d.vm with PC := d.vm.PC + 1 } (code d.vm.PC) d.ch hop
  have hb1 : res.vm.BP = 1 := hb.trans hlink
  have hdump : dumpStack res.vm.stack (depth + 1 + 1) res.vm.SP res.vm.BP
      = some (StackItem.num 0 :: StackItem.bar :: slots d.vm.stack 1 (d.vm.BP - 1)) := by
    rw [hb1, dumpStack_outer, hs, hst]
    have h1 : (1 : Int) ≤ d.vm.BP - 1 := by omega
    show some (StackItem.num 0 :: if 1 ≤ d.vm.BP - 1 then _ else _) = _
    rw [if_pos h1]
  obtain ⟨d1, h1, h2, h3⟩ := loopBody_trace code (depth + 2) d res _ hres hdump
  exact ⟨d1, h1, by rw [h2]; exact hb1, by rw [h2]; exact hs, by rw [h2]; exact hst, h3⟩

/-! ## The dynamic chain along a run -/

theorem isDynChain_congr (stack stack2 : Int → Int) (bs : List Int)
    (h : isDynChain stack bs) (hsame : ∀ c ∈ bs.tail, stack2 (c + 2) = stack (c + 2)) :
    isDynChain stack2 bs := by
  induction bs with
  | nil => trivial
  | cons x rest ih =>
    cases rest with
    | nil => trivial
    | cons y ys =>
      simp only [isDynChain] at h ⊢
      refine ⟨h.1, (hsame y (by simp)).trans h.2.1, ih h.2.2 fun c hc => hsame c ?_⟩
      simp only [List.tail_cons] at hc ⊢
      exact List.mem_cons_of_mem y hc

theorem isDynChain_head_le (stack : Int → Int) (bs : List Int) (x : Int)
    (h : isDynChain stack (x :: bs)) : ∀ c ∈ x :: bs, x ≤ c := by
  induction bs generalizing x with
  | nil =>
    intro c hc
    simp at hc
    omega
  | cons y ys ih =>
    intro c hc
    simp only [isDynChain] at h
    rcases List.mem_cons.1 hc with e | e
    · omega
    · have := ih y h.2.2 c e
      omega

theorem isDynChain_link_mem (stack : Int → Int) (bs : List Int) (x : Int)
    (h : isDynChain stack (x :: bs)) :
    ∀ c ∈ x :: bs, c = x ∨ (stack (c + 2) ∈ x :: bs ∧ stack (c + 2) < c) := by
  induction bs generalizing x with
  | nil =>
    intro c hc
    simp at hc
    exact Or.inl hc
  | cons y ys ih =>
    intro c hc
    simp only [isDynChain] at h
    rcases List.mem_cons.1 hc with e | e
    · exact Or.inl e
    · rcases ih y h.2.2 c e with e2 | ⟨hm, hlt⟩
      · subst e2
        exact Or.inr ⟨by rw [h.2.1]; exact List.mem_cons_self _ _, by rw [h.2.1]; exact h.1⟩
      · exact Or.inr ⟨List.mem_cons_of_mem x hm, hlt⟩

theorem isDynChain_le_last (stack : Int → Int) (xs : List Int) :
    ∀ b : Int, isDynChain stack (xs ++ [b]) → ∀ c ∈ xs ++ [b], c ≤ b := by
  induction xs using List.reverseRecOn with
  | nil =>
    intro b _ c hc
    simp at hc
    omega
  | append_singleton ys y ih =>
    intro b h c hc
    have hsplit : ys ++ [y] ++ [b] = ys ++ [y, b] := by simp
    rw [hsplit] at h
    obtain ⟨h1, h2, -⟩ := (isDynChain_snoc stack ys y b).1 h
    rcases List.mem_append.1 hc with e | e
    · have := ih y h1 c e
      omega
    · simp at e
      omega

theorem isDynChain_prefix (stack : Int → Int) (xs : List Int) (c b : Int)
    (h : isDynChain stack (xs ++ [c, b])) :
    isDynChain stack (xs ++ [c]) ∧ c < b ∧ stack (b + 2) = c :=
  (isDynChain_snoc stack xs c b).1 h

theorem onChain_trans (stack : Int → Int) (a b c : Int) (hab : OnChain stack a b)
    (hbc : OnChain stack b c) : OnChain stack a c := by
  induction hbc with
  | start => exact hab
  | link _ h0 h1 ih => exact OnChain.link ih h0 h1

theorem mem_onChain (stack : Int → Int) (xs : List Int) :
    ∀ b : Int, isDynChain stack (xs ++ [b]) → (xs ++ [b]).head? = some 1 →
      ∀ c ∈ xs ++ [b], OnChain stack b c := by
  induction xs using List.reverseRecOn with
  | nil =>
    intro b _ _ c hc
    simp at hc
    subst hc
    exact OnChain.start
  | append_singleton ys y ih =>
    intro b h hhead c hc
    have hsplit : ys ++ [y] ++ [b] = ys ++ [y, b] := by simp
    rw [hsplit] at h hhead
    obtain ⟨h1, h2, h3⟩ := (isDynChain_snoc stack ys y b).1 h
    have hhead2 : (ys ++ [y]).head? = some 1 := by
      cases ys with
      | nil => simpa using hhead
      | cons z zs => simpa using hhead
    have hy : 1 ≤ y := isDynChain_last_pos stack ys y h1 hhead2
    rcases List.mem_append.1 hc with e | e
    · have hby : OnChain stack b y := by
        have := OnChain.link (OnChain.start : OnChain stack b b) (by omega) (by omega)
        rwa [h3] at this
      exact onChain_trans stack b y c hby (ih y h1 hhead2 c e)
    · simp at e
      subst e
      exact OnChain.start

theorem onChain_mem (stack : Int → Int) (bs : List Int) (bp : Int)
    (hhead : bs.head? = some 1) (hlast : bs.getLast? = some bp) (h : isDynChain stack bs)
    (b : Int) (hb : OnChain stack bp b) : b ∈ bs := by
  obtain ⟨rest, rfl⟩ : ∃ rest, bs = 1 :: rest := by
    cases bs with
    | nil => simp at hhead
    | cons x rest =>
      simp at hhead
      exact ⟨rest, by rw [hhead]⟩
  induction hb with
  | start =>
    obtain ⟨ys, hys⟩ := List.getLast?_eq_some_iff.1 hlast
    rw [hys]
    simp
  | link _ h0 h1 ih =>
    rcases isDynChain_link_mem stack rest 1 h _ ih with e | ⟨hm, -⟩
    · exact absurd e h1
    · exact hm

theorem dumpStack_isSome_of_chain (stack : Int → Int) (xs : List Int) :
    ∀ (b sp : Int) (depth : Nat), isDynChain stack (xs ++ [b]) →
      (xs ++ [b]).head? = some 1 → xs.length + 1 ≤ depth →
      (dumpStack stack depth sp b).isSome = true := by
  induction xs using List.reverseRecOn with
  | nil =>
    intro b sp depth _ hhead hd
    have hb : b = 1 := by simpa using hhead
    subst hb
    obtain ⟨d, rfl⟩ : ∃ d, depth = d + 1 := ⟨depth - 1, by simp at hd; omega⟩
    simp only [dumpStack]
    simp
    split <;> rfl
  | append_singleton ys c ih =>
    intro b sp depth hchain hhead hd
    have hsplit : ys ++ [c] ++ [b] = ys ++ [c, b] := by simp
    rw [hsplit] at hchain hhead
    obtain ⟨hc, hlt, hlink⟩ := (isDynChain_snoc stack ys c b).1 hchain
    have hhead2 : (ys ++ [c]).head? = some 1 := by
      cases ys with
      | nil => simpa using hhead
      | cons z zs => simpa using hhead
    have hcpos : 1 ≤ c := isDynChain_last_pos stack ys c hc hhead2
    obtain ⟨d, rfl⟩ : ∃ d, depth = d + 1 := ⟨depth - 1, by simp at hd; omega⟩
    have hrec := ih c (b - 1) d hc hhead2 (by simp at hd; omega)
    obtain ⟨items, hitems⟩ := Option.isSome_iff_exists.1 hrec
    have h0 : b ≠ 0 := by omega
    have h1 : b ≠ 1 := by omega
    simp only [dumpStack, h0, h1, if_false, hlink, hitems]
    split <;> rfl

theorem exec_frame_kept (vm : VirtualMachine) (ins : Instruction) (ch : Channels)
    (res : ExecResult) (h2 : ins.op ≠ 2) (h4 : ins.op ≠ 4) (h5 : ins.op ≠ 5)
    (h : executeInstruction vm ins ch = some res) :
    res.vm.BP = vm.BP ∧ res.vm.stack = vm.stack := by
  by_cases hr : 1 ≤ ins.op ∧ ins.op ≤ 24
  · rcases opcode_cases ins hr.1 hr.2 with hk | hk | hk | hk | hk | hk | hk | hk | hk | hk | hk | hk |
      hk | hk | hk | hk | hk | hk | hk | hk | hk | hk | hk | hk
    all_goals
      first
      | exact absurd hk h2
      | exact absurd hk h4
      | exact absurd hk h5
      | (simp [executeInstruction, hk] at h
         first
         | (subst h; exact ⟨rfl, rfl⟩)
         | (rw [← h.2]; exact ⟨rfl, rfl⟩)
         | (split at h <;> simp at h <;> subst h <;> exact ⟨rfl, rfl⟩))
  · rw [exec_default vm ins ch (by omega)] at h
    cases h
    exact ⟨rfl, rfl⟩

theorem exec_sto_of_op (vm : VirtualMachine) (ins : Instruction) (ch : Channels)
    (res : ExecResult) (h4 : ins.op = 4) (h : executeInstruction vm ins ch = some res) :
    res.vm.BP = vm.BP ∧ res.vm.SP = vm.SP ∧
      res.vm.stack
        = setCell vm.stack (getBasePointer vm.stack vm.BP ins.l + ins.m) (vm.RF ins.r) := by
  obtain ⟨op, r, l, m⟩ := ins
  simp only at h4
  subst h4
  rw [exec_sto] at h
  cases h
  exact ⟨rfl, rfl, rfl⟩

theorem isDynChain_tail_gt (stack : Int → Int) (x : Int) (rest : List Int)
    (h : isDynChain stack (x :: rest)) : ∀ c ∈ rest, x < c := by
  cases rest with
  | nil =>
    intro c hc
    simp at hc
  | cons y ys =>
    intro c hc
    simp only [isDynChain] at h
    have := isDynChain_head_le stack ys y h.2.2 c hc
    omega

theorem chainInv_step (vm : VirtualMachine) (ins : Instruction) (ch : Channels)
    (res : ExecResult) (hinv : ChainInv vm)
    (hcal : ins.op = 5 → (vm.BP = 1 ∧ 1 ≤ vm.SP) ∨ vm.BP + 2 ≤ vm.SP)
    (hrtn : ins.op = 2 → vm.BP ≠ 1)
    (hsto : ins.op = 4 → ∀ b, OnChain vm.stack vm.BP b → b ≠ 0 → b ≠ 1 →
      getBasePointer vm.stack vm.BP ins.l + ins.m ≠ b + 2)
    (h : executeInstruction vm ins ch = some res) : ChainInv res.vm := by
  obtain ⟨bs, hhead, hlast, hchain⟩ := hinv
  obtain ⟨ys, hys⟩ := List.getLast?_eq_some_iff.1 hlast
  by_cases h5 : ins.op = 5
  · obtain ⟨res2, hres2, hb, -, hl, hkeep⟩ := exec_cal_of_op vm ins ch h5
    rw [hres2] at h
    cases h
    rcases hcal h5 with ⟨hb1, hsp⟩ | hdeep
    · refine ⟨[1, vm.SP + 1], rfl, by simp [hb], ?_⟩
      simp only [isDynChain]
      have e : vm.SP + 1 + 2 = vm.SP + 3 := by ring
      refine ⟨by omega, ?_, trivial⟩
      rw [e, hl, hb1]
    · subst hys
      refine ⟨ys ++ [vm.BP, vm.SP + 1], ?_, by simp [hb], ?_⟩
      · cases ys with
        | nil => simpa using hhead
        | cons z zs => simpa using hhead
      · rw [isDynChain_snoc]
        have e : vm.SP + 1 + 2 = vm.SP + 3 := by ring
        refine ⟨isDynChain_congr vm.stack _ _ hchain fun c hc => ?_, by omega, by rw [e, hl]⟩
        have hle := isDynChain_le_last vm.stack ys vm.BP hchain c (List.mem_of_mem_tail hc)
        exact hkeep (c + 2) (by omega)
  · by_cases h2 : ins.op = 2
    · obtain ⟨res2, hres2, hb, -, hst⟩ := exec_rtn_of_op vm ins ch h2
      rw [hres2] at h
      cases h
      subst hys
      rcases List.eq_nil_or_concat ys with e | ⟨zs, c, e⟩
      · subst e
        simp at hhead
        exact absurd hhead (hrtn h2)
      · subst e
        have hsplit : zs.concat c ++ [vm.BP] = zs ++ [c, vm.BP] := by simp
        rw [hsplit] at hchain hhead
        obtain ⟨hc, -, hlink⟩ := (isDynChain_snoc vm.stack zs c vm.BP).1 hchain
        refine ⟨zs ++ [c], ?_, by simp [hb, hlink], by rw [hst]; exact hc⟩
        cases zs with
        | nil => simpa using hhead
        | cons z zs2 => simpa using hhead
    · by_cases h4 : ins.op = 4
      · obtain ⟨hb, -, hst⟩ := exec_sto_of_op vm ins ch res h4 h
        refine ⟨bs, hhead, by rw [hb]; exact hlast, ?_⟩
        rw [hst]
        refine isDynChain_congr vm.stack _ bs hchain fun c hc => ?_
        obtain ⟨rest, rfl⟩ : ∃ rest, bs = 1 :: rest := by
          cases bs with
          | nil => simp at hhead
          | cons x rest =>
            simp at hhead
            exact ⟨rest, by rw [hhead]⟩
        have hgt : 1 < c := isDynChain_tail_gt vm.stack 1 rest hchain c (by simpa using hc)
        have hon : OnChain vm.stack vm.BP c := by
          have hmem : c ∈ ys ++ [vm.BP] := by
            rw [← hys]
            exact List.mem_of_mem_tail hc
          exact mem_onChain vm.stack ys vm.BP (by rw [← hys]; exact hchain)
            (by rw [← hys]; exact hhead) c hmem
        have hne := hsto h4 c hon (by omega) (by omega)
        exact setCell_other _ _ _ _ (Ne.symm hne)
      · obtain ⟨hb, hst⟩ := exec_frame_kept vm ins ch res h2 h4 h5 h
        exact ⟨bs, hhead, by rw [hb]; exact hlast, by rw [hst]; exact hchain⟩

theorem chainInv_of_safe_run (vm1 : VirtualMachine) (ch1 : Channels) :
    ∀ (p : List Instruction) (v : VirtualMachine) (c : Channels),
      ChainInv v → chainSafe p v c → runSeq p v c = some (vm1, ch1) → ChainInv vm1 := by
  intro p
  induction p with
  | nil =>
    intro v c hv _ hr
    simp only [runSeq, Option.some.injEq, Prod.mk.injEq] at hr
    rw [← hr.1]
    exact hv
  | cons i rest ih =>
    intro v c hv hs hr
    unfold chainSafe at hs
    unfold runSeq at hr
    cases hstep : executeInstruction v i c with
    | none => simp [hstep] at hr
    | some res =>
      simp only [hstep] at hs hr
      exact ih res.vm res.ch (chainInv_step v i c res hv hs.1 hs.2.1 hs.2.2.1 hstep)
        hs.2.2.2 hr

/-- C14, amended: take a sequence of instructions, executed through
`executeInstruction` from the initial state, in which every `CAL` is executed
either in the outermost frame holding at least one cell (`BP = 1`, `SP ≥ 1`) or
with the current frame's dynamic-link cell inside the live stack
(`BP + 2 ≤ SP`), no `RTN` is executed in the outermost frame, and no `STO`
writes the dynamic-link cell of a frame on the dynamic chain.  In every state it
reaches, each frame base `b` other than 1 on the dynamic chain starting at `BP`
has a dynamic link `stack[b + 2]` strictly smaller than `b`, and the recursion
of `dumpStack(stack, SP, BP)` ends: every large enough depth gives a result. -/
theorem dynamic_chain_descends_on_safe_run (prog : List Instruction) (vm0 : VirtualMachine)
    (ch : Channels) (hsafe : chainSafe prog (initVM vm0) ch)
    (vm : VirtualMachine) (ch1 : Channels)
    (hrun : runSeq prog (initVM vm0) ch = some (vm, ch1)) :
    (∀ b, OnChain vm.stack vm.BP b → b ≠ 1 → vm.stack (b + 2) < b) ∧
    ∃ depth : Nat, ∀ d : Nat, depth ≤ d → (dumpStack vm.stack d vm.SP vm.BP).isSome = true := by
  have hinit : ChainInv (initVM vm0) := ⟨[1], rfl, rfl, trivial⟩
  obtain ⟨bs, hhead, hlast, hchain⟩ :=
    chainInv_of_safe_run vm ch1 prog (initVM vm0) ch hinit hsafe hrun
  constructor
  · intro b hb h1
    have hmem := onChain_mem vm.stack bs vm.BP hhead hlast hchain b hb
    obtain ⟨rest, rfl⟩ : ∃ rest, bs = 1 :: rest := by
      cases bs with
      | nil => simp at hhead
      | cons x rest =>
        simp at hhead
        exact ⟨rest, by rw [hhead]⟩
    rcases isDynChain_link_mem vm.stack rest 1 hchain b hmem with e | ⟨-, hlt⟩
    · exact absurd e h1
    · exact hlt
  · obtain ⟨ys, rfl⟩ := List.getLast?_eq_some_iff.1 hlast
    exact ⟨ys.length + 1, fun d hd =>
      dumpStack_isSome_of_chain vm.stack ys vm.BP vm.SP d hchain hhead hd⟩

theorem dynamic_chain_descends_on_safe_run_witness :
    chainSafe nestedCallProg (initVM zeroVM) noChannels ∧
    ∃ vm ch, runSeq nestedCallProg (initVM zeroVM) noChannels = some (vm, ch) ∧
      vm.BP = 5 ∧ vm.stack (vm.BP + 2) = 1 ∧
      (∀ b, OnChain vm.stack vm.BP b → b ≠ 1 → vm.stack (b + 2) < b) ∧
      ∃ depth : Nat, ∀ d : Nat, depth ≤ d →
        (dumpStack vm.stack d vm.SP vm.BP).isSome = true := by
  have hs : chainSafe nestedCallProg (initVM zeroVM) noChannels := by
    simp [chainSafe, nestedCallProg, executeInstruction, initVM, zeroVM, getBasePointer,
      walkChain, setCell]
  have hr : ∃ vm ch, runSeq nestedCallProg (initVM zeroVM) noChannels = some (vm, ch) ∧
      vm.BP = 5 ∧ vm.stack (vm.BP + 2) = 1 := by
    simp [runSeq, nestedCallProg, executeInstruction, initVM, zeroVM, getBasePointer,
      walkChain, setCell]
  obtain ⟨vm, ch, hrun, hbp, hlink⟩ := hr
  have h := dynamic_chain_descends_on_safe_run nestedCallProg zeroVM noChannels hs vm ch hrun
  exact ⟨hs, vm, ch, hrun, hbp, hlink, h.1, h.2⟩

/-! ## The trace of one call -/

theorem groupCount_calleeFrames (s : Int) (vm : VirtualMachine) :
    groupCount (calleeFrames s vm) = if vm.BP ≤ vm.SP then 2 else 1 := by
  by_cases h : vm.BP ≤ vm.SP <;>
    simp [calleeFrames, groupCount, h, List.count_cons, List.count_append, count_bar_slots]

theorem callee_step (code : Int → Instruction) (depth : Nat) (s : Int) (d d1 : Driver)
    (hb : d.vm.BP = s + 1) (hs : 1 ≤ s) (hl : d.vm.stack (s + 3) = 1)
    (h5 : (code d.vm.PC).op ≠ 5) (h2 : (code d.vm.PC).op ≠ 2)
    (h4 : (code d.vm.PC).op = 4 →
      getBasePointer d.vm.stack d.vm.BP (code d.vm.PC).l + (code d.vm.PC).m ≠ d.vm.BP + 2)
    (h : loopBody code (depth + 2) d = some d1) :
    d1.vm.BP = s + 1 ∧ d1.vm.stack (s + 3) = 1 ∧
      lastFrames d1 = some (calleeFrames s d1.vm) := by
  obtain ⟨res, hres, -, hvm⟩ := loopBody_some code (depth + 2) d d1 h
  have hkeep : res.vm.BP = s + 1 ∧ res.vm.stack (s + 3) = 1 := by
    by_cases hop : (code d.vm.PC).op = 4
    · obtain ⟨e1, -, e3⟩ := exec_sto_of_op _ _ _ res hop hres
      refine ⟨e1.trans hb, ?_⟩
      rw [e3]
      have hne : s + 3 ≠ getBasePointer d.vm.stack d.vm.BP (code d.vm.PC).l + (code d.vm.PC).m := by
        intro e
        apply h4 hop
        rw [← e, hb]
        ring
      exact (setCell_other _ _ _ _ hne).trans hl
    · obtain ⟨e1, e2⟩ := exec_frame_kept _ _ _ res h2 hop h5 hres
      refine ⟨e1.trans hb, ?_⟩
      rw [e2]
      exact hl
  have hb2 : 2 ≤ res.vm.BP := by
    rw [hkeep.1]
    omega
  have hlink : res.vm.stack (res.vm.BP + 2) = 1 := by
    have e : res.vm.BP + 2 = s + 3 := by
      rw [hkeep.1]
      ring
    rw [e]
    exact hkeep.2
  obtain ⟨d2, frames, g1, g2, g3, g4, -⟩ := trace_inside_callee code depth d res hres hb2 hlink
  have hd : d2 = d1 := Option.some.inj (g1.symm.trans h)
  subst hd
  have hidx : res.vm.BP - 1 = s := by
    rw [hkeep.1]
    ring
  refine ⟨by rw [g2]; exact hkeep.1, by rw [g2]; exact hkeep.2, ?_⟩
  rw [g3, g4, g2, hidx]
  rfl

theorem callee_steps (code : Int → Instruction) (depth : Nat) (s : Int) (hs : 1 ≤ s) :
    ∀ (n : Nat) (d dn : Driver), d.vm.BP = s + 1 → d.vm.stack (s + 3) = 1 →
      lastFrames d = some (calleeFrames s d.vm) →
      calleeSafe code (depth + 2) n d → loopSteps code (depth + 2) n d = some dn →
      dn.vm.BP = s + 1 ∧ dn.vm.stack (s + 3) = 1 ∧
        lastFrames dn = some (calleeFrames s dn.vm) := by
  intro n
  induction n with
  | zero =>
    intro d dn hb hl hf _ hrun
    simp only [loopSteps] at hrun
    cases hrun
    exact ⟨hb, hl, hf⟩
  | succ n ih =>
    intro d dn hb hl _ hsafe hrun
    simp only [loopSteps] at hrun
    simp only [calleeSafe] at hsafe
    obtain ⟨h5, h2, h4, hrest⟩ := hsafe
    by_cases hh : d.halt ≠ 0
    · rw [if_pos hh] at hrun
      cases hbody : loopBody code (depth + 2) d with
      | none => simp [hbody] at hrun
      | some d1 =>
        simp only [hbody] at hrun hrest
        obtain ⟨e1, e2, e3⟩ := callee_step code depth s d d1 hb hs hl h5 h2 h4 hbody
        exact ih d1 dn e1 e2 e3 hrest hrun
    · rw [if_neg hh] at hrun
      cases hrun

/-- C12, amended: in a run of the loop of `simulateVM`, let a `CAL` be executed
from the outermost frame (`BP = 1`) while that frame holds `s ≥ 1` cells.  The
step of the `CAL` completes.  Consider any number `n` of further steps of the
loop that execute no `CAL`, no `RTN`, and no `STO` to the dynamic-link cell
`stack[BP + 2]` of the callee.  The trace line written last after them (for
`n = 0`, the line of the `CAL` itself) renders the sentinel `0`, the caller's
group `stack[1 .. s]` and, exactly when the callee holds a cell (`BP ≤ SP`), a
second group `stack[BP .. SP]`: two groups when `BP ≤ SP`, one otherwise.  If
the next instruction is then the `RTN`, its step completes, returns to
`BP = 1`, `SP = s`, and renders the sentinel and exactly one group,
`stack[1 .. s]`. -/
theorem one_call_trace_groups (code : Int → Instruction) (depth : Nat) (d0 : Driver)
    (hhalt : d0.halt ≠ 0) (hop : (code d0.vm.PC).op = 5) (hbp : d0.vm.BP = 1)
    (hsp : 1 ≤ d0.vm.SP) :
    ∃ d1, loopSteps code (depth + 2) 1 d0 = some d1 ∧
      ∀ (n : Nat) (dn : Driver), calleeSafe code (depth + 2) n d1 →
        loopSteps code (depth + 2) n d1 = some dn →
        dn.vm.BP = d0.vm.SP + 1 ∧
        (∃ frames, lastFrames dn = some frames ∧
          frames = (StackItem.num 0 :: StackItem.bar :: slots dn.vm.stack 1 d0.vm.SP ++
            if dn.vm.BP ≤ dn.vm.SP then StackItem.bar :: slots dn.vm.stack dn.vm.BP dn.vm.SP
            else []) ∧
          groupCount frames = if dn.vm.BP ≤ dn.vm.SP then 2 else 1) ∧
        ((code dn.vm.PC).op = 2 → dn.halt ≠ 0 →
          ∃ d2 frames, loopSteps code (depth + 2) 1 dn = some d2 ∧
            d2.vm.BP = 1 ∧ d2.vm.SP = d0.vm.SP ∧ lastFrames d2 = some frames ∧
            frames = StackItem.num 0 :: StackItem.bar :: slots d2.vm.stack 1 d0.vm.SP ∧
            groupCount frames = 1) := by
  obtain ⟨d1, h1, -, c1, -, c3, c4⟩ := trace_at_cal code depth d0 hop hbp hsp
  refine ⟨d1, by simp [loopSteps, hhalt, h1], fun n dn hsafe hrun => ?_⟩
  obtain ⟨e1, e2, e3⟩ :=
    callee_steps code depth d0.vm.SP hsp n d1 dn c1 c3 c4 hsafe hrun
  refine ⟨e1, ⟨_, e3, rfl, groupCount_calleeFrames _ _⟩, fun hrtn hh => ?_⟩
  have hlink : dn.vm.stack (dn.vm.BP + 2) = 1 := by
    have e : dn.vm.BP + 2 = d0.vm.SP + 3 := by
      rw [e1]
      ring
    rw [e]
    exact e2
  obtain ⟨d2, g1, g2, g3, g4, g5⟩ :=
    trace_at_rtn code depth dn hrtn (by rw [e1]; omega) hlink
  have hidx : dn.vm.BP - 1 = d0.vm.SP := by
    rw [e1]
    ring
  refine ⟨d2, _, by simp [loopSteps, hh, g1], g2, g3.trans hidx, ?_, rfl, ?_⟩
  · rw [g5, g4, hidx]
  · simp [groupCount, List.count_cons, count_bar_slots]

theorem one_call_trace_groups_witness :
    ∃ d0 d1 dn d2,
      loopSteps callIncCode 2 1 (initDriver zeroVM noChannels fun _ => 0) = some d0 ∧
      d0.halt ≠ 0 ∧ (callIncCode d0.vm.PC).op = 5 ∧ d0.vm.BP = 1 ∧ 1 ≤ d0.vm.SP ∧
      loopSteps callIncCode 2 1 d0 = some d1 ∧
      calleeSafe callIncCode 2 3 d1 ∧ loopSteps callIncCode 2 3 d1 = some dn ∧
      dn.vm.BP = 5 ∧ dn.vm.SP = 9 ∧ dn.vm.stack 9 = 7 ∧ (callIncCode dn.vm.PC).op = 2 ∧
      (lastFrames dn).map groupCount = some 2 ∧
      loopSteps callIncCode 2 1 dn = some d2 ∧ d2.vm.BP = 1 ∧ d2.vm.SP = 4 ∧
      (lastFrames d2).map groupCount = some 1 := by
  have hcomp : ∃ d0,
      loopSteps callIncCode 2 1 (initDriver zeroVM noChannels fun _ => 0) = some d0 ∧
      d0.halt = 1 ∧ d0.vm.PC = 1 ∧ d0.vm.BP = 1 ∧ d0.vm.SP = 4 ∧
      ∃ d1, loopSteps callIncCode 2 1 d0 = some d1 ∧ calleeSafe callIncCode 2 3 d1 ∧
      ∃ dn, loopSteps callIncCode 2 3 d1 = some dn ∧ dn.vm.BP = 5 ∧ dn.vm.SP = 9 ∧
        dn.vm.stack 9 = 7 ∧ dn.vm.PC = 6 ∧ dn.halt = 1 := by
    simp [loopSteps, calleeSafe, loopBody, initDriver, initVM, zeroVM, noChannels, callIncCode,
      executeInstruction, dumpStack, dumpRecord_eq_slots, getBasePointer, walkChain, setCell,
      opcodeName, opcodes]
  obtain ⟨d0, hd0, a1, a2, a3, a4, d1, hd1, hsafe, dn, hdn, b1, b2, b3, b4, b5⟩ := hcomp
  have hh : d0.halt ≠ 0 := by
    rw [a1]
    decide
  have hcal : (callIncCode d0.vm.PC).op = 5 := by
    rw [a2]
    rfl
  have hsp : 1 ≤ d0.vm.SP := by
    rw [a4]
    decide
  obtain ⟨d1x, h1, hall⟩ := one_call_trace_groups callIncCode 0 d0 hh hcal a3 hsp
  have hx : d1x = d1 := Option.some.inj (h1.symm.trans hd1)
  subst hx
  obtain ⟨-, ⟨frames, f1, -, f3⟩, hrtn⟩ := hall 3 dn hsafe hdn
  have hop : (callIncCode dn.vm.PC).op = 2 := by
    rw [b4]
    rfl
  obtain ⟨d2, frames2, g1, g2, g3, g4, -, g6⟩ := hrtn hop (by rw [b5]; decide)
  have hle : dn.vm.BP ≤ dn.vm.SP := by
    rw [b1, b2]
    decide
  rw [if_pos hle] at f3
  refine ⟨d0, d1x, dn, d2, hd0, hh, hcal, a3, hsp, hd1, hsafe, hdn, b1, b2, b3, hop, ?_, g1, g2,
    g3.trans a4, ?_⟩
  · rw [f1]
    exact congrArg some f3
  · rw [g4]
    exact congrArg some g6

end VM
